import Mathlib

/-!
Formal model of the MiniGridOptimiser engine (`src/mgo/mgo.py`).

The source represents graph data as Python lists of lists.  Here each
node row and arc row becomes a structure whose fields correspond, in
order, to the positional fields documented in `create_network`.  Python
floats are modelled as rationals, Python in-place mutation as explicit
state threading, Python exceptions (IndexError, ZeroDivisionError, and
missing-element errors) as `Option`, and the unbounded recursion of the
source as fuel-indexed recursion that returns `none` when the fuel runs
out.
-/

set_option maxRecDepth 4000

namespace MGO

/-- Python list index normalisation: a non-negative index must be below
the length, a negative index counts from the end, anything else is an
IndexError (`none`). -/
def pyIdx (len : Nat) (i : Int) : Option Nat :=
  if 0 ≤ i ∧ i < (len : Int) then some i.toNat
  else if -(len : Int) ≤ i ∧ i < 0 then some ((len : Int) + i).toNat
  else none

/-- Python `l[i]` (read). -/
def pyGet (l : List α) (i : Int) : Option α :=
  (pyIdx l.length i).bind fun n => l.get? n

/-- Python `l[i] = x` (write).  Our uses always follow a successful
`pyGet` of the same cell, so the `none` branch never fires on the paths
we reason about. -/
def pySet (l : List α) (i : Int) (x : α) : List α :=
  match pyIdx l.length i with
  | some n => l.set n x
  | none => l

/-- A building node (index 0 is the generator), mirroring the
positional fields `node[0]`..`node[6]` plus the connected-arc index
list `node[7:]` of `create_network`. -/
structure Node where
  idx : Int
  x : Int
  y : Int
  area : Int
  marg : ℚ
  tot : ℚ
  conn : Int
  arcs : List Int
deriving DecidableEq, Repr

/-- A network arc, mirroring the positional fields `arc[0]`..`arc[9]`
of `create_network`. -/
structure Arc where
  idx : Int
  xs : Int
  ys : Int
  xe : Int
  ye : Int
  ns : Int
  ne : Int
  directed : Int
  len : ℚ
  enabled : Int
deriving DecidableEq, Repr

/-- The economic parameters of `run_model` after the `float`/`int`
coercions at its top. -/
structure Econ where
  demand : ℚ
  tariff : ℚ
  gen_cost : ℚ
  cost_wire : ℚ
  cost_connection : ℚ
  opex_ratio : ℚ
  years : Nat
  discount_rate : ℚ
deriving DecidableEq, Repr

/-- `num_people_per_m2 = 0.15` (mgo.py line 288). -/
def num_people_per_m2 : ℚ := 15 / 100

/-- `demand_per_person_kw_peak = demand_per_person_kwh_month / (4*30)`
(mgo.py line 289). -/
def demand_kw_peak (e : Econ) : ℚ := e.demand / (4 * 30)

/-- The generator cost computed once at the top of `run_model` (lines
290-291): the summed floor area of ALL nodes converted to population
and peak demand, priced per kW. -/
def cost_gen_all (e : Econ) (nodes : List Node) : ℚ :=
  ((nodes.map fun n => (n.area : ℚ)).sum * num_people_per_m2 * demand_kw_peak e) * e.gen_cost

/-- `calculate_profit` (mgo.py lines 294-309): accumulate wiring and
connection cost plus monthly income over the subtree reachable from
`index` through enabled arcs, treating `disabledArc` as disabled.  The
Python recursion threads `nodes` and `network` through every call. -/
def calculate_profit (e : Econ) :
    Nat → List Node → List Arc → Int → Int → ℚ → ℚ →
    Option (ℚ × ℚ × List Node × List Arc)
  | 0, _, _, _, _, _, _ => none
  | fuel + 1, nodes, network, index, disabledArc, cost, income => do
    let nd ← pyGet nodes index
    let cost := cost + e.cost_wire * nd.marg + e.cost_connection
    let income := income + (nd.area : ℚ) * num_people_per_m2 * e.demand * e.tariff
    nd.arcs.foldlM
      (fun (st : ℚ × ℚ × List Node × List Arc) k => do
        let a ← pyGet st.2.2.2 k
        if a.enabled = 1 ∧ a.idx ≠ disabledArc ∧ a.ns = index then
          calculate_profit e fuel st.2.2.1 st.2.2.2 a.ne disabledArc st.1 st.2.1
        else
          pure st)
      (cost, income, nodes, network)

/-- `np.npv(rate, values)`: numpy's documented formula
`(values / (1+rate)**np.arange(0, len(values))).sum()`. -/
def npNpv (rate : ℚ) (flows : List ℚ) : ℚ :=
  ∑ t ∈ Finset.range flows.length, flows.getD t 0 / (1 + rate) ^ t

/-- `flows = np.ones(years) * annual; flows[0] = -capex` (lines
333-334 and 442-443). -/
def mkFlows (years : Nat) (annual capex : ℚ) : List ℚ :=
  (List.replicate years annual).set 0 (-capex)

/-- The eight-line NPV evaluation of one hypothetical arc removal
(lines 326-335, repeated verbatim at lines 364-373): run
`calculate_profit` from the root with the candidate treated as
disabled, then price the result.  `years = 0` makes `flows[0] = -capex`
an IndexError in the source, hence `none`. -/
def evalCandidate (e : Econ) (costGen : ℚ) (pf : Nat) (nodes : List Node) (net : List Arc)
    (cand : Int) : Option (ℚ × List Node × List Arc) := do
  let (cost, income_per_month, nodes, net) ← calculate_profit e pf nodes net 0 cand 0 0
  let capex := costGen + cost
  let opex := e.opex_ratio * capex
  let income := income_per_month * 12
  if e.years = 0 then none
  else pure (npNpv e.discount_rate (mkFlows e.years (income - opex) capex), nodes, net)

/-- The loop state of one candidate-scanning round of the optimiser:
the `found` flag, the running best NPV, the arc index recorded with it
(`none` while `best_npv_index` is still unassigned), the threaded
`nodes`/`network` lists, and the source's own `counter` of how many
hypothetical evaluations have been performed. -/
structure RoundRes where
  found : Bool
  best : ℚ
  bestIdx : Option Int
  nodes : List Node
  net : List Arc
  counter : Nat
deriving DecidableEq, Repr

/-- One `for arc in network` round of the NPV-maximising loop (lines
322-343): every arc is evaluated; an arc becomes the round's best cut
whenever its NPV strictly exceeds the running best. -/
def npvRound (e : Econ) (costGen : ℚ) (pf : Nat) (nodes0 : List Node) (net0 : List Arc)
    (best0 : ℚ) (bestIdx0 : Option Int) (counter0 : Nat) : Option RoundRes :=
  net0.foldlM
    (fun (r : RoundRes) a => do
      let (npv, nodes, net) ← evalCandidate e costGen pf r.nodes r.net a.idx
      let r := { r with nodes := nodes, net := net, counter := r.counter + 1 }
      if npv > r.best then pure { r with found := true, best := npv, bestIdx := some a.idx }
      else pure r)
    { found := false, best := best0, bestIdx := bestIdx0, nodes := nodes0, net := net0,
      counter := counter0 }

/-- The NPV-maximising pruning loop (lines 317-351): rounds repeat,
carrying `best_npv` across rounds; a round that finds an improvement
disables `network[best_npv_index]` and continues, otherwise the loop
breaks. -/
def npvLoop (e : Econ) (costGen : ℚ) (pf : Nat) :
    Nat → List Node → List Arc → ℚ → Option Int → Nat →
    Option (List Node × List Arc)
  | 0, _, _, _, _, _ => none
  | lf + 1, nodes, net, best, bestIdx, counter => do
    let r ← npvRound e costGen pf nodes net best bestIdx counter
    if r.found then do
      let i ← r.bestIdx
      let a ← pyGet r.net i
      npvLoop e costGen pf lf r.nodes (pySet r.net i { a with enabled := 0 }) r.best r.bestIdx
        r.counter
    else pure (r.nodes, r.net)

/-- One round of the coverage-mode scan (lines 360-381): identical to
`npvRound` except that `best_npv` restarts at `-9999999` and selection
additionally requires `arc[9] == 1`. -/
def covRound (e : Econ) (costGen : ℚ) (pf : Nat) (nodes0 : List Node) (net0 : List Arc)
    (bestIdx0 : Option Int) (counter0 : Nat) : Option RoundRes :=
  net0.foldlM
    (fun (r : RoundRes) a => do
      let (npv, nodes, net) ← evalCandidate e costGen pf r.nodes r.net a.idx
      let r := { r with nodes := nodes, net := net, counter := r.counter + 1 }
      if npv > r.best ∧ a.enabled = (1 : Int) then
        pure { r with found := true, best := npv, bestIdx := some a.idx }
      else pure r)
    { found := false, best := -9999999, bestIdx := bestIdx0, nodes := nodes0, net := net0,
      counter := counter0 }

/-- The coverage-targeted pruning loop (lines 352-389): each round
disables its best enabled cut if one was found, then recomputes
`actual_coverage = enabled arcs / total_arcs` and stops once it is at
or below the target.  `totalArcs` is `len(network)` captured once
before the loop. -/
def covLoop (e : Econ) (costGen : ℚ) (pf : Nat) (target totalArcs : ℚ) :
    Nat → List Node → List Arc → Nat → Option (List Node × List Arc)
  | 0, _, _, _ => none
  | lf + 1, nodes, net, counter => do
    let r ← covRound e costGen pf nodes net none counter
    let net1 ←
      if r.found then do
        let i ← r.bestIdx
        let a ← pyGet r.net i
        pure (pySet r.net i { a with enabled := 0 })
      else pure r.net
    let coverage := ((net1.filter fun a => a.enabled == 1).length : ℚ) / totalArcs
    if coverage ≤ target then pure (r.nodes, net1)
    else covLoop e costGen pf target totalArcs lf r.nodes net1 r.counter

/-- One iteration of the `for arc in connected_arcs` loop of
`connect_houses` (lines 403-405), with `rec` standing for the
recursive call at one unit less fuel. -/
def connectStep (rec : List Node → List Arc → Int → Option (List Node × List Arc))
    (index : Int) (st : List Node × List Arc) (k : Int) :
    Option (List Node × List Arc) := do
  let a ← pyGet st.2 k
  if a.enabled = 1 ∧ a.ns = index then rec st.1 st.2 a.ne
  else pure st

/-- `connect_houses` (lines 395-407): depth-first from `index`, set
`node[6] = 1`, then follow every listed arc that is enabled and starts
at this node. -/
def connect_houses : Nat → List Node → List Arc → Int → Option (List Node × List Arc)
  | 0, _, _, _ => none
  | fuel + 1, nodes, net, index => do
    let nd ← pyGet nodes index
    nd.arcs.foldlM (connectStep (connect_houses fuel) index)
      (pySet nodes index { nd with conn := 1 }, net)

/-- The inner `for arc in connected_arcs: arc[9] = 0` of the
stranded-arc pass (lines 414-416). -/
def zeroArcs (ks : List Int) (net : List Arc) : Option (List Arc) :=
  ks.foldlM
    (fun net k => do
      let a ← pyGet net k
      pure (pySet net k { a with enabled := 0 }))
    net

/-- The stranded-arc pass (lines 412-416): every arc listed by a node
whose connected flag is still 0 is disabled. -/
def strandedDisable (nodes : List Node) (net : List Arc) : Option (List Arc) :=
  nodes.foldlM
    (fun net nd => if nd.conn = 0 then zeroArcs nd.arcs net else pure net)
    net

/-- The Connectivity Resolver pass of `run_model` (lines 395-416):
`connect_houses` from node 0 followed by the stranded-arc disable
loop. -/
def resolver (fuel : Nat) (nodes : List Node) (net : List Arc) :
    Option (List Node × List Arc) := do
  let (nodes, net) ← connect_houses fuel nodes net 0
  let net ← strandedDisable nodes net
  pure (nodes, net)

/-- The summary record built at lines 446-452.  All monetary and size
figures go through Python's `int()` truncation. -/
structure Report where
  connected : Int
  gen_size : Int
  lengthM : Int
  capex : Int
  opex : Int
  income : Int
  npv : Int
deriving DecidableEq, Repr

/-- Python `int()` on a rational: truncation toward zero. -/
def pyTrunc (q : ℚ) : Int := q.num.tdiv q.den

/-- The final reporting pass of `run_model` (lines 395-454): resolve
connectivity, then aggregate connected-node counts, income and
generator size, enabled wire length, and the final financials. -/
def finishModel (e : Econ) (fuel : Nat) (nodes : List Node) (net : List Arc) :
    Option (Report × List Arc × List Node) := do
  let (nodes, net) ← resolver fuel nodes net
  let stats := nodes.foldl
    (fun (acc : Int × ℚ × ℚ) nd =>
      if nd.conn = 1 then
        (acc.1 + 1,
         acc.2.1 + (nd.area : ℚ) * num_people_per_m2 * e.demand * e.tariff,
         acc.2.2 + (nd.area : ℚ) * num_people_per_m2 * demand_kw_peak e)
      else acc)
    (0, 0, 0)
  let count_nodes : Int := stats.1 - 1
  let income_per_month := stats.2.1
  let gen_size_kw := stats.2.2
  let total_length := net.foldl (fun acc a => if a.enabled = 1 then acc + a.len else acc) 0
  let capex := gen_size_kw * e.gen_cost + e.cost_connection * (count_nodes : ℚ) +
    e.cost_wire * total_length
  let opex := e.opex_ratio * capex
  let income := income_per_month * 12
  if e.years = 0 then none
  else
    let npv := npNpv e.discount_rate (mkFlows e.years (income - opex) capex)
    pure ({ connected := count_nodes, gen_size := pyTrunc gen_size_kw,
            lengthM := pyTrunc total_length, capex := pyTrunc capex, opex := pyTrunc opex,
            income := pyTrunc income, npv := pyTrunc npv }, net, nodes)

/-- `run_model` (lines 241-454): compute the fixed generator cost,
run the mode selected by `target_coverage` (the `-1` sentinel selects
NPV mode), then run the final reporting pass.  An empty network in
coverage mode is numpy-independent Python `ZeroDivisionError` on
`len(network)`, hence `none`. -/
def run_model (e : Econ) (fuel : Nat) (net : List Arc) (nodes : List Node)
    (target_coverage : ℚ) : Option (Report × List Arc × List Node) := do
  let costGen := cost_gen_all e nodes
  let (nodes, net) ←
    if target_coverage = -1 then npvLoop e costGen fuel fuel nodes net (-9999999) none 0
    else if net.length = 0 then none
    else covLoop e costGen fuel target_coverage (net.length : ℚ) fuel nodes net 0
  finishModel e fuel nodes net

/-- Find the first node (in list order) whose coordinates match, with
its position: the `for node in nodes ... break` scan at lines
213-225. -/
def findNodeAt (nodes : List Node) (x y : Int) : Option (Nat × Node) :=
  nodes.enum.find? fun pn => pn.2.x = x && pn.2.y = y

/-- The body shared by both claiming branches of `direct_network`
(lines 208-225): set the arc's start-node field (`nodes[index][0]`)
and directed flag, find the first node matching its end coordinates,
set that node's marginal and total distances, disable the arc when the
total exceeds `maxTot`, and recurse from that node.  When no node
matches the end coordinates the inner scan simply falls through with
`arc[6]` untouched. -/
def directClaim (maxTot : ℚ)
    (rec : List Node → List Arc → Int → Option (List Node × List Arc)) (nd : Node)
    (st : List Node × List Arc) (p : Nat) (a1 : Arc) : Option (List Node × List Arc) :=
  let a2 := { a1 with ns := nd.idx, directed := 1 }
  let net1 := pySet st.2 (p : Int) a2
  match findNodeAt st.1 a2.xe a2.ye with
  | none => pure (st.1, net1)
  | some (q, ndB) =>
    let a3 := { a2 with ne := ndB.idx }
    let net2 := pySet net1 (p : Int) a3
    let ndB1 := { ndB with marg := a3.len, tot := nd.tot + a3.len }
    let nodes1 := pySet st.1 (q : Int) ndB1
    let net3 := if nd.tot + a3.len > maxTot then pySet net2 (p : Int) { a3 with enabled := 0 }
      else net2
    rec nodes1 net3 ndB1.idx

/-- One iteration of the `for arc in network` loop of `direct_network`
(lines 186-226), with `rec` standing for the recursive call at one
unit less fuel.  An arc touching the current node's coordinates and
not yet directed is claimed (flipped when matched at its end
coordinates); already-directed arcs are skipped by the `continue`
guards. -/
def directStep (maxTot : ℚ)
    (rec : List Node → List Arc → Int → Option (List Node × List Arc)) (index : Int)
    (st : List Node × List Arc) (p : Nat) : Option (List Node × List Arc) := do
  let nd ← pyGet st.1 index
  let a ← pyGet st.2 (p : Int)
  if a.xs = nd.x ∧ a.ys = nd.y then
    if a.directed = 1 then pure st
    else directClaim maxTot rec nd st p a
  else if a.xe = nd.x ∧ a.ye = nd.y then
    if a.directed = 1 then pure st
    else directClaim maxTot rec nd st p { a with xs := a.xe, ys := a.ye, xe := a.xs, ye := a.ys }
  else pure st

/-- `direct_network` (lines 185-231): scan every arc position from the
node `index`, claiming and recursing as in `directStep`. -/
def direct_network (maxTot : ℚ) :
    Nat → List Node → List Arc → Int → Option (List Node × List Arc)
  | 0, _, _, _ => none
  | fuel + 1, nodes, net, index =>
    (List.range net.length).foldlM (directStep maxTot (direct_network maxTot fuel) index)
      (nodes, net)

/-- The incident-arc registration pass of `create_network` (lines
234-236): append each arc's index to the arc lists of the nodes at its
recorded start and end indices.  A node index still at the `-99`
sentinel is a Python negative index: an IndexError on node lists
shorter than 99, a silent append to the wrong node otherwise. -/
def addArcRefs (nodes : List Node) (net : List Arc) : Option (List Node) :=
  net.foldlM
    (fun nodes a => do
      let ndS ← pyGet nodes a.ns
      let nodes := pySet nodes a.ns { ndS with arcs := ndS.arcs ++ [a.idx] }
      let ndE ← pyGet nodes a.ne
      pure (pySet nodes a.ne { ndE with arcs := ndE.arcs ++ [a.idx] }))
    nodes

/-- A node with its connected flag cleared; two node lists that agree
after `stripConn` differ at most in their connected flags. -/
def stripConn (n : Node) : Node := { n with conn := 0 }

/-- The node lists agree except possibly on connected flags. -/
def sameShape (nodes nodesB : List Node) : Prop :=
  nodesB.map stripConn = nodes.map stripConn

/-- Position `i` (Python semantics) holds a node whose connected flag
is 1. -/
def connAt (nodes : List Node) (i : Int) : Prop :=
  ∃ nd, pyGet nodes i = some nd ∧ nd.conn = 1

/-- Boolean test of `connAt` at a natural position. -/
def connP (nodes : List Node) (p : Nat) : Bool :=
  match nodes.get? p with
  | some nd => nd.conn == 1
  | none => false

/-- Raw position `p` holds a node whose connected flag is 1. -/
def connAtPos (nodes : List Node) (p : Nat) : Prop :=
  ∃ nd, nodes.get? p = some nd ∧ nd.conn = 1

instance (nodes : List Node) (p : Nat) : Decidable (connAtPos nodes p) :=
  match h : nodes.get? p with
  | some nd =>
    if hc : nd.conn = 1 then isTrue ⟨nd, h, hc⟩
    else isFalse fun hcp => by
      obtain ⟨nd2, h2, hc2⟩ := hcp
      rw [h] at h2
      cases h2
      exact hc hc2
  | none => isFalse fun hcp => by
    obtain ⟨nd2, h2, _⟩ := hcp
    rw [h] at h2
    cases h2

/-- Reachability exactly as the `connect_houses` traversal walks the
graph: from node `i`, follow any arc index listed in the node's
incident list that resolves to an enabled arc starting at `i`. -/
inductive ReachesT (nodes : List Node) (net : List Arc) : Int → Int → Prop
  | refl (i : Int) : ReachesT nodes net i i
  | head {i j k : Int} {nd : Node} {a : Arc} :
      pyGet nodes i = some nd → k ∈ nd.arcs → pyGet net k = some a →
      a.enabled = 1 → a.ns = i → ReachesT nodes net a.ne j → ReachesT nodes net i j

/-- Graph-theoretic reachability through enabled arcs: from node `i`,
follow any enabled arc of the network whose directed start is `i`. -/
inductive Reaches (net : List Arc) : Int → Int → Prop
  | refl (i : Int) : Reaches net i i
  | head {i j : Int} {a : Arc} :
      a ∈ net → a.enabled = 1 → a.ns = i → Reaches net a.ne j → Reaches net i j

/-- Some index in `ks` resolves, under Python indexing into a list of
length `len`, to position `p`. -/
def inKs (ks : List Int) (len : Nat) (p : Nat) : Prop :=
  ∃ k ∈ ks, pyIdx len k = some p

/-- Arc position `p` is listed by some node whose connected flag is 0:
the set of positions the stranded-arc pass disables. -/
def strandedSet (nodes : List Node) (len : Nat) (p : Nat) : Prop :=
  ∃ nd ∈ nodes, nd.conn = 0 ∧ inKs nd.arcs len p

instance (ks : List Int) (len : Nat) (p : Nat) : Decidable (inKs ks len p) :=
  List.decidableBEx _ ks

instance (nodes : List Node) (len : Nat) (p : Nat) : Decidable (strandedSet nodes len p) :=
  List.decidableBEx _ nodes

/-- Well-formed incident-arc registration, as `create_network` leaves
it: every arc can be found from its start node's incident list under
Python lookup. -/
def wfIncidence (nodes : List Node) (net : List Arc) : Bool :=
  net.all fun a =>
    match pyGet nodes a.ns with
    | some nd => nd.arcs.any fun k => decide (pyGet net k = some a)
    | none => false

/-- Modelled from the spec: the summed floor area of the nodes still
connected under a hypothetical arc removal, walked exactly like the
Economic Evaluator walks the subtree (spec 4.2: only enabled arcs, not
the hypothetically disabled one, outgoing direction only). -/
def specConnectedArea (cand : Int) :
    Nat → List Node → List Arc → Int → Option ℚ
  | 0, _, _, _ => none
  | fuel + 1, nodes, net, index => do
    let nd ← pyGet nodes index
    nd.arcs.foldlM
      (fun (acc : ℚ) k => do
        let a ← pyGet net k
        if a.enabled = 1 ∧ a.idx ≠ cand ∧ a.ns = index then do
          let s ← specConnectedArea cand fuel nodes net a.ne
          pure (acc + s)
        else pure acc)
      ((nd.area : ℚ))

/-- Modelled from the spec: the candidate NPV evaluation with the
generator sized from the population still connected under the
hypothetical removal ("Generator sizing (kW) = total connected
population × peak-demand-per-person"), all other formulas as in
section 4.2. -/
def evalCandidateSpecGen (e : Econ) (pf : Nat) (nodes : List Node) (net : List Arc)
    (cand : Int) : Option ℚ := do
  let (cost, income_per_month, _, _) ← calculate_profit e pf nodes net 0 cand 0 0
  let connArea ← specConnectedArea cand pf nodes net 0
  let costGen := connArea * num_people_per_m2 * demand_kw_peak e * e.gen_cost
  let capex := costGen + cost
  let opex := e.opex_ratio * capex
  let income := income_per_month * 12
  if e.years = 0 then none
  else pure (npNpv e.discount_rate (mkFlows e.years (income - opex) capex))

/-! Concrete fixtures used by counterexamples and witnesses.  `exA`
is a two-node, one-arc directed state as `create_network` would emit
it (generator at position 0, one building of 20 m2 at distance 1). -/

/-- Nodes of the two-node fixture: the generator and one building. -/
def nodesA : List Node :=
  [{ idx := 0, x := 0, y := 0, area := 0, marg := 0, tot := 0, conn := 0, arcs := [0] },
   { idx := 1, x := 1, y := 0, area := 20, marg := 1, tot := 1, conn := 0, arcs := [0] }]

/-- The single enabled directed arc of the two-node fixture. -/
def netEnabled : List Arc :=
  [{ idx := 0, xs := 0, ys := 0, xe := 1, ye := 0, ns := 0, ne := 1, directed := 1,
     len := 1, enabled := 1 }]

/-- The same arc but disabled (as the max-reach cutoff of
`direct_network` would leave it). -/
def netDisabled : List Arc :=
  [{ idx := 0, xs := 0, ys := 0, xe := 1, ye := 0, ns := 0, ne := 1, directed := 1,
     len := 1, enabled := 0 }]

/-- Economics with positive wire/connection cost and tariff. -/
def econBasic : Econ :=
  { demand := 120, tariff := 2, gen_cost := 1000, cost_wire := 3, cost_connection := 100,
    opex_ratio := 0, years := 1, discount_rate := 0 }

/-- Economics where everything is zero (every candidate NPV is 0). -/
def econZero : Econ :=
  { demand := 0, tariff := 0, gen_cost := 0, cost_wire := 0, cost_connection := 0,
    opex_ratio := 0, years := 1, discount_rate := 0 }

/-- Economics with an enormous connection cost: every candidate NPV is
below the `-9999999` sentinel. -/
def econHuge : Econ :=
  { demand := 0, tariff := 0, gen_cost := 0, cost_wire := 0, cost_connection := 20000000,
    opex_ratio := 0, years := 1, discount_rate := 0 }

/-- Economics isolating the generator term: 20 m2 × 0.15 people/m2 ×
1 kW peak × 1000 USD/kW prices the full-population generator at
3000. -/
def econGen : Econ :=
  { demand := 120, tariff := 0, gen_cost := 1000, cost_wire := 0, cost_connection := 0,
    opex_ratio := 0, years := 1, discount_rate := 0 }

/-- The two-node fixture after the Connectivity Resolver has marked
both nodes connected. -/
def nodesAConn : List Node :=
  [{ idx := 0, x := 0, y := 0, area := 0, marg := 0, tot := 0, conn := 1, arcs := [0] },
   { idx := 1, x := 1, y := 0, area := 20, marg := 1, tot := 1, conn := 1, arcs := [0] }]

/-- The report `finishModel econGen 5 nodesA netEnabled` produces. -/
def repGen : Report :=
  { connected := 1, gen_size := 3, lengthM := 1, capex := 3000, opex := 0, income := 0,
    npv := -3000 }

/-- The round result of the NPV-mode scan over `netDisabled` under
`econZero`: the disabled arc is selected as best cut. -/
def roundDisabledRes : RoundRes :=
  { found := true, best := 0, bestIdx := some 0, nodes := nodesA, net := netDisabled,
    counter := 1 }

/-- The round result of the NPV-mode scan over `netEnabled` under
`econHuge`: nothing beats the `-9999999` sentinel. -/
def roundHugeRes : RoundRes :=
  { found := false, best := -9999999, bestIdx := none, nodes := nodesA, net := netEnabled,
    counter := 1 }

/-- A malformed input for the Network Director: four nodes but the
second arc joins nodes 2 and 3, which are unreachable from the root
(a forest, not a spanning tree).  Arcs are in their raw undirected
`create_network` form. -/
def nodesForest : List Node :=
  [{ idx := 0, x := 0, y := 0, area := 0, marg := 0, tot := 0, conn := 0, arcs := [] },
   { idx := 1, x := 1, y := 0, area := 10, marg := 0, tot := 0, conn := 0, arcs := [] },
   { idx := 2, x := 5, y := 5, area := 10, marg := 0, tot := 0, conn := 0, arcs := [] },
   { idx := 3, x := 6, y := 5, area := 10, marg := 0, tot := 0, conn := 0, arcs := [] }]

/-- The undirected arcs of the forest fixture: arc 1 is unreachable
from the root. -/
def netForest : List Arc :=
  [{ idx := 0, xs := 0, ys := 0, xe := 1, ye := 0, ns := -99, ne := -99, directed := 0,
     len := 1, enabled := 1 },
   { idx := 1, xs := 5, ys := 5, xe := 6, ye := 5, ns := -99, ne := -99, directed := 0,
     len := 1, enabled := 1 }]

/-- The node list `direct_network` returns on the forest fixture. -/
def nodesForestDir : List Node :=
  [{ idx := 0, x := 0, y := 0, area := 0, marg := 0, tot := 0, conn := 0, arcs := [] },
   { idx := 1, x := 1, y := 0, area := 10, marg := 1, tot := 1, conn := 0, arcs := [] },
   { idx := 2, x := 5, y := 5, area := 10, marg := 0, tot := 0, conn := 0, arcs := [] },
   { idx := 3, x := 6, y := 5, area := 10, marg := 0, tot := 0, conn := 0, arcs := [] }]

/-- The arc list `direct_network` returns on the forest fixture: the
unreachable arc keeps its sentinels and is still undirected. -/
def netForestDir : List Arc :=
  [{ idx := 0, xs := 0, ys := 0, xe := 1, ye := 0, ns := 0, ne := 1, directed := 1,
     len := 1, enabled := 1 },
   { idx := 1, xs := 5, ys := 5, xe := 6, ye := 5, ns := -99, ne := -99, directed := 0,
     len := 1, enabled := 1 }]

/-! A rooted-tree view of the input used to specify `direct_network`
on valid spanning trees.  `RTree`/`RForest` name the node positions
and arc positions of the spanning tree the Graph Builder supplies. -/

mutual
/-- A rooted subtree: the node-list position of its root and its
children. -/
inductive RTree : Type where
| mk : Nat → RForest → RTree

/-- The children of a node: each child records the arc-list position
of the edge to it and the child subtree. -/
inductive RForest : Type where
| nil : RForest
| cons : Nat → RTree → RForest → RForest
end

/-- Root position of a subtree. -/
def RTree.pos : RTree → Nat
  | .mk p _ => p

mutual
/-- One plus the number of proper descendants. -/
def sizeT : RTree → Nat
  | .mk _ f => 1 + sizeF f

/-- Total number of nodes in a forest. -/
def sizeF : RForest → Nat
  | .nil => 0
  | .cons _ t f => sizeT t + sizeF f
end

mutual
/-- All node positions of a subtree (root first). -/
def nodesOfT : RTree → List Nat
  | .mk p f => p :: nodesOfF f

/-- All node positions of a forest. -/
def nodesOfF : RForest → List Nat
  | .nil => []
  | .cons _ t f => nodesOfT t ++ nodesOfF f
end

mutual
/-- All arc positions of a subtree. -/
def arcsOfT : RTree → List Nat
  | .mk _ f => arcsOfF f

/-- All arc positions of a forest: the edge arcs and the arcs inside
the subtrees. -/
def arcsOfF : RForest → List Nat
  | .nil => []
  | .cons r t f => r :: (arcsOfT t ++ arcsOfF f)
end

mutual
/-- All edges of a subtree as (parent position, arc position, child
position) triples. -/
def edgesT : RTree → List (Nat × Nat × Nat)
  | .mk p f => edgesF p f

/-- All edges of a forest hanging from parent `p`. -/
def edgesF (p : Nat) : RForest → List (Nat × Nat × Nat)
  | .nil => []
  | .cons r t f => (p, r, t.pos) :: (edgesT t ++ edgesF p f)
end

/-- An arc in its raw `create_network` form joining the nodes at
positions `p` and `q`, in either orientation. -/
def undirEdge (nodes : List Node) (p q : Nat) (a : Arc) : Prop :=
  a.directed = 0 ∧ a.enabled = 1 ∧
  ∃ ndP ndQ, nodes.get? p = some ndP ∧ nodes.get? q = some ndQ ∧
    ((a.xs = ndP.x ∧ a.ys = ndP.y ∧ a.xe = ndQ.x ∧ a.ye = ndQ.y) ∨
     (a.xs = ndQ.x ∧ a.ys = ndQ.y ∧ a.xe = ndP.x ∧ a.ye = ndP.y))

mutual
/-- The tree describes the data: every named node position holds a
node, every edge arc is a raw arc joining its endpoints. -/
def repT (nodes : List Node) (net : List Arc) : RTree → Prop
  | .mk p f => (∃ nd, nodes.get? p = some nd) ∧ repF nodes net p f

/-- Forest version of `repT`, hanging from parent position `p`. -/
def repF (nodes : List Node) (net : List Arc) (p : Nat) : RForest → Prop
  | .nil => True
  | .cons r t f =>
      (∃ a, net.get? r = some a ∧ undirEdge nodes p t.pos a) ∧
      repT nodes net t ∧ repF nodes net p f
end

/-- A node with its marginal and total distances cleared; two node
lists that agree after `stripDist` differ at most in those two
fields. -/
def stripDist (n : Node) : Node := { n with marg := 0, tot := 0 }

/-- The node lists agree except possibly on marginal/total
distances. -/
def distAgree (nodes l : List Node) : Prop :=
  l.map stripDist = nodes.map stripDist

/-- Arc position `r` (of the original network) touches the original
node at position `q`: one of its endpoints carries that node's
coordinates. -/
def Touches (nodes : List Node) (net : List Arc) (r q : Nat) : Prop :=
  ∃ a nd, net.get? r = some a ∧ nodes.get? q = some nd ∧
    ((a.xs = nd.x ∧ a.ys = nd.y) ∨ (a.xe = nd.x ∧ a.ye = nd.y))

mutual
/-- Postcondition of directing the subtree `t` whose root was entered
with total distance `d`: every edge arc is directed parent-to-child
with the original length, the child node carries marginal distance
equal to the arc length and total distance `d` plus the accumulated
lengths, and the arc is disabled exactly when its child's total
exceeds `maxTot`. -/
def doneT (nodes : List Node) (net : List Arc) (maxTot : ℚ) :
    RTree → ℚ → List Node × List Arc → Prop
  | .mk p f, d, s => doneF nodes net maxTot p d f s

/-- Forest version of `doneT`. -/
def doneF (nodes : List Node) (net : List Arc) (maxTot : ℚ) :
    Nat → ℚ → RForest → List Node × List Arc → Prop
  | _, _, .nil, _ => True
  | p, d, .cons r t f, s =>
      (∃ a0 a, net.get? r = some a0 ∧ s.2.get? r = some a ∧
        a.directed = 1 ∧ a.ns = (p : Int) ∧ a.ne = (t.pos : Int) ∧ a.len = a0.len ∧
        a.enabled = (if d + a0.len > maxTot then 0 else 1) ∧
        (∃ ndW, s.1.get? t.pos = some ndW ∧ ndW.marg = a0.len ∧ ndW.tot = d + a0.len) ∧
        doneT nodes net maxTot t (d + a0.len) s) ∧
      doneF nodes net maxTot p d f s
end

/-- The arc positions of a forest's own edges (children of the common
parent), without the arcs inside the child subtrees. -/
def topArcsF : RForest → List Nat
  | .nil => []
  | .cons r _ f => r :: topArcsF f

/-- No two nodes share coordinates (the Graph Builder snaps each
building to one point). -/
def coordInj (nodes : List Node) : Prop :=
  ∀ p q ndP ndQ, nodes.get? p = some ndP → nodes.get? q = some ndQ →
    ndP.x = ndQ.x → ndP.y = ndQ.y → p = q

/-- Every node stores its own list position in `node[0]`, as
`create_network` builds them. -/
def idxOk (nodes : List Node) : Prop :=
  ∀ p nd, nodes.get? p = some nd → nd.idx = (p : Int)

/-- Invariant of the traversal state `m` relative to the original
lists, where `R` is the set of arc positions not yet claimed: lengths
are unchanged, nodes differ at most in marginal/total distances,
unclaimed arcs are still in their original form, and an arc is
undirected exactly when unclaimed. -/
def treeGood (nodes : List Node) (net : List Arc) (R : Nat → Prop)
    (m : List Node × List Arc) : Prop :=
  m.1.length = nodes.length ∧ m.2.length = net.length ∧
  distAgree nodes m.1 ∧
  (∀ r : Nat, R r → m.2.get? r = net.get? r) ∧
  (∀ r a, m.2.get? r = some a → ((R r → a.directed = 0) ∧ (¬ R r → a.directed = 1)))

/-- A two-building spanning-tree input for `direct_network`: the
generator at the origin and one building one metre east, joined by a
single raw arc. -/
def nodesSpan : List Node :=
  [⟨0, 0, 0, 0, 0, 0, 0, []⟩, ⟨1, 1, 0, 20, 0, 0, 0, []⟩]

/-- The single raw arc of `nodesSpan`. -/
def netSpan : List Arc :=
  [⟨0, 0, 0, 1, 0, -99, -99, 0, 1, 1⟩]

/-- The spanning tree of `nodesSpan`/`netSpan`: node 1 hangs from node
0 through arc 0. -/
def treeSpan : RTree := .mk 0 (.cons 0 (.mk 1 .nil) .nil)

/-! Basic lemmas about the Python list primitives. -/

theorem pyIdx_lt {len : Nat} {i : Int} {n : Nat} (h : pyIdx len i = some n) : n < len := by
  unfold pyIdx at h
  split at h
  · rename_i hc
    cases h
    omega
  · split at h
    · rename_i hc
      cases h
      omega
    · cases h

theorem pyGet_mem {l : List α} {i : Int} {a : α} (h : pyGet l i = some a) : a ∈ l := by
  unfold pyGet at h
  rw [Option.bind_eq_some] at h
  obtain ⟨n, _, hg⟩ := h
  exact List.get?_mem hg

theorem length_pySet (l : List α) (i : Int) (x : α) : (pySet l i x).length = l.length := by
  unfold pySet
  split <;> simp

theorem pyIdx_none_pySet {l : List α} {i : Int} (x : α) (h : pyIdx l.length i = none) :
    pySet l i x = l := by
  unfold pySet
  rw [h]

theorem pyGet_pySet_self {l : List α} {i : Int} {n : Nat} (x : α)
    (h : pyIdx l.length i = some n) : pyGet (pySet l i x) i = some x := by
  simp only [pySet, h]
  unfold pyGet
  rw [List.length_set, h]
  show (l.set n x).get? n = some x
  rw [List.get?_eq_getElem?]
  exact List.getElem?_set_self (pyIdx_lt h)

theorem pyGet_pySet_of_ne {l : List α} {i j : Int} (x : α)
    (h : pyIdx l.length j ≠ pyIdx l.length i) : pyGet (pySet l i x) j = pyGet l j := by
  cases hi : pyIdx l.length i with
  | none => rw [pyIdx_none_pySet x hi]
  | some n =>
    simp only [pySet, hi]
    unfold pyGet
    rw [List.length_set]
    cases hj : pyIdx l.length j with
    | none => rfl
    | some m =>
      rw [hi, hj] at h
      show (l.set n x).get? m = l.get? m
      rw [List.get?_eq_getElem?, List.get?_eq_getElem?]
      exact List.getElem?_set_ne (fun e => h (by rw [e]))

theorem pySet_same {l : List α} {i : Int} {a : α} (h : pyGet l i = some a) :
    pySet l i a = l := by
  unfold pyGet at h
  rw [Option.bind_eq_some] at h
  obtain ⟨n, hn, hg⟩ := h
  unfold pySet
  rw [hn]
  apply List.ext_get?
  intro m
  rcases eq_or_ne n m with rfl | hne
  · rw [List.get?_eq_getElem?, List.getElem?_set_self (pyIdx_lt hn), ← hg]
  · rw [List.get?_eq_getElem?, List.getElem?_set_ne hne, List.get?_eq_getElem?]

/-! Generic induction lemmas for `foldlM` over `Option`. -/

theorem foldlM_option_inv {g : β → α → Option β} (P : β → Prop) :
    ∀ {l : List α} {b0 bf : β}, l.foldlM g b0 = some bf →
      (∀ b a, a ∈ l → P b → ∀ b', g b a = some b' → P b') → P b0 → P bf := by
  intro l
  induction l with
  | nil =>
    intro b0 bf h _ h0
    simp only [List.foldlM_nil, pure] at h
    cases h
    exact h0
  | cons a l ih =>
    intro b0 bf h hstep h0
    rw [List.foldlM_cons] at h
    cases hb1 : g b0 a with
    | none => rw [hb1] at h; simp at h
    | some b1 =>
      rw [hb1] at h
      simp only [Option.bind_eq_bind, Option.some_bind] at h
      exact ih h (fun b x hx => hstep b x (List.mem_cons_of_mem _ hx))
        (hstep b0 a (List.mem_cons_self _ _) h0 b1 hb1)

theorem foldlM_option_mem {g : β → α → Option β} (M : β → β → Prop)
    (Mrefl : ∀ b, M b b) (Mtrans : ∀ b1 b2 b3, M b1 b2 → M b2 b3 → M b1 b3)
    (Mstep : ∀ b a b', g b a = some b' → M b b') :
    ∀ {l : List α} {b0 bf : β}, l.foldlM g b0 = some bf →
      ∀ x ∈ l, ∃ b b', g b x = some b' ∧ M b0 b ∧ M b' bf := by
  intro l
  induction l with
  | nil =>
    intro b0 bf _ x hx
    cases hx
  | cons a l ih =>
    intro b0 bf h x hx
    rw [List.foldlM_cons] at h
    cases hb1 : g b0 a with
    | none => rw [hb1] at h; simp at h
    | some b1 =>
    rw [hb1] at h
    simp only [Option.bind_eq_bind, Option.some_bind] at h
    have hrest := h
    rcases List.mem_cons.mp hx with rfl | hx
    · refine ⟨b0, b1, hb1, Mrefl b0, ?_⟩
      exact foldlM_option_inv (fun b => M b1 b) hrest
        (fun b y _ hb b' hb' => Mtrans _ _ _ hb (Mstep b y b' hb')) (Mrefl b1)
    · obtain ⟨b, b', hg, hM0, hMf⟩ := ih hrest x hx
      exact ⟨b, b', hg, Mtrans _ _ _ (Mstep b0 a b1 hb1) hM0, hMf⟩

/-! Frame property of the Economic Evaluator. -/

/-- Helper: `calculate_profit` returns its node and network lists
unchanged. -/
theorem calculate_profit_keeps_lists :
    ∀ (fuel : Nat) (e : Econ) (nodes : List Node) (net : List Arc) (index disabledArc : Int)
      (c0 i0 : ℚ) (res : ℚ × ℚ × List Node × List Arc),
      calculate_profit e fuel nodes net index disabledArc c0 i0 = some res →
      res.2.2.1 = nodes ∧ res.2.2.2 = net := by
  intro fuel
  induction fuel with
  | zero =>
    intro e nodes net index disabledArc c0 i0 res h
    simp [calculate_profit] at h
  | succ fuel ih =>
    intro e nodes net index disabledArc c0 i0 res h
    rw [calculate_profit] at h
    cases hnd : pyGet nodes index with
    | none => rw [hnd] at h; simp at h
    | some nd =>
      rw [hnd] at h
      simp only [Option.bind_eq_bind, Option.some_bind] at h
      refine foldlM_option_inv (fun st => st.2.2.1 = nodes ∧ st.2.2.2 = net) h ?_ ⟨rfl, rfl⟩
      intro b k hk hP b' hb'
      simp only at hb'
      cases ha : pyGet b.2.2.2 k with
      | none => rw [ha] at hb'; simp at hb'
      | some a =>
        rw [ha] at hb'
        simp only [Option.bind_eq_bind, Option.some_bind] at hb'
        split at hb'
        · have hrec := ih e b.2.2.1 b.2.2.2 a.ne disabledArc b.1 b.2.1 b' hb'
          exact ⟨hrec.1.trans hP.1, hrec.2.trans hP.2⟩
        · cases hb'
          exact hP

/-- C7: `calculate_profit` threads the node and network lists through
every recursive call without ever writing to them: whatever it
returns, the returned lists are exactly the input lists, so no node
field and no arc field (including enabled flags) differs after the
call. -/
theorem calculate_profit_frame (fuel : Nat) (e : Econ) (nodes : List Node) (net : List Arc)
    (index disabledArc : Int) (c0 i0 : ℚ) (res : ℚ × ℚ × List Node × List Arc)
    (h : calculate_profit e fuel nodes net index disabledArc c0 i0 = some res) :
    res.2.2.1 = nodes ∧ res.2.2.2 = net :=
  calculate_profit_keeps_lists fuel e nodes net index disabledArc c0 i0 res h

/-- Witness for C7 at a concrete evaluated input. -/
theorem calculate_profit_frame_witness :
    calculate_profit econBasic 5 nodesA netEnabled 0 (-1) 0 0 =
      some (203, 720, nodesA, netEnabled) ∧
    (((203 : ℚ), (720 : ℚ), nodesA, netEnabled) : ℚ × ℚ × List Node × List Arc).2.2.1 =
      nodesA := by
  have h : calculate_profit econBasic 5 nodesA netEnabled 0 (-1) 0 0 =
      some (203, 720, nodesA, netEnabled) := by
    norm_num [calculate_profit, nodesA, netEnabled, econBasic, pyGet, pyIdx,
      num_people_per_m2, List.foldlM_cons, List.foldlM_nil, Option.bind_eq_bind,
      Option.some_bind]
  exact ⟨h, (calculate_profit_frame 5 econBasic nodesA netEnabled 0 (-1) 0 0
    (203, 720, nodesA, netEnabled) h).1⟩

/-! The discounted-cash-flow structure of every NPV computation. -/

theorem npNpv_mkFlows (y : Nat) (hy : y ≠ 0) (annual capex rate : ℚ) :
    npNpv rate (mkFlows y annual capex) =
      ∑ t ∈ Finset.range y, (if t = 0 then -capex else annual) / (1 + rate) ^ t := by
  unfold npNpv mkFlows
  rw [List.length_set, List.length_replicate]
  refine Finset.sum_congr rfl ?_
  intro t ht
  rw [Finset.mem_range] at ht
  congr 1
  rcases Nat.eq_zero_or_pos t with rfl | hpos
  · rw [if_pos rfl]
    have h0 : ((List.replicate y annual).set 0 (-capex))[0]? = some (-capex) :=
      List.getElem?_set_self (by simpa using Nat.pos_of_ne_zero hy)
    simp [List.getD, h0]
  · rw [if_neg (Nat.pos_iff_ne_zero.mp hpos)]
    have hne : (0 : Nat) ≠ t := fun e => (Nat.pos_iff_ne_zero.mp hpos) e.symm
    have h1 : ((List.replicate y annual).set 0 (-capex))[t]? = some annual := by
      rw [List.getElem?_set_ne hne, List.getElem?_replicate, if_pos ht]
    simp [List.getD, h1]

/-- C5: every NPV computed by `run_model` is the discounted sum
`Σ flow_t / (1+rate)^t` over `t = 0 .. years-1` with `flow_0 = -capex`
and `flow_t = income - opex` for `t ≥ 1`, where `opex` is
`opex_ratio × capex` and `income` is 12 × the monthly income; the
per-candidate capex is the fixed generator cost plus the accumulated
wiring/connection cost, and the report capex is the recomputed
generator cost plus connection and wiring cost. -/
theorem npv_discounted_cash_flow :
    (∀ (e : Econ) (costGen : ℚ) (pf : Nat) (nodes : List Node) (net : List Arc) (cand : Int)
       (npv : ℚ) (nodes2 : List Node) (net2 : List Arc),
      evalCandidate e costGen pf nodes net cand = some (npv, nodes2, net2) →
      ∃ cost income_per_month : ℚ,
        calculate_profit e pf nodes net 0 cand 0 0 =
          some (cost, income_per_month, nodes2, net2) ∧
        npv = ∑ t ∈ Finset.range e.years,
          (if t = 0 then -(costGen + cost)
           else income_per_month * 12 - e.opex_ratio * (costGen + cost)) /
            (1 + e.discount_rate) ^ t) ∧
    (∀ (e : Econ) (fuel : Nat) (nodes : List Node) (net : List Arc) (rep : Report)
       (net2 : List Arc) (nodes2 : List Node),
      finishModel e fuel nodes net = some (rep, net2, nodes2) →
      ∃ capex income_per_month : ℚ,
        rep.capex = pyTrunc capex ∧
        rep.opex = pyTrunc (e.opex_ratio * capex) ∧
        rep.income = pyTrunc (income_per_month * 12) ∧
        rep.npv = pyTrunc (∑ t ∈ Finset.range e.years,
          (if t = 0 then -capex
           else income_per_month * 12 - e.opex_ratio * capex) / (1 + e.discount_rate) ^ t)) := by
  constructor
  · intro e costGen pf nodes net cand npv nodes2 net2 h
    unfold evalCandidate at h
    cases hcp : calculate_profit e pf nodes net 0 cand 0 0 with
    | none => rw [hcp] at h; simp at h
    | some res =>
      obtain ⟨cost, inc, nds, nw⟩ := res
      rw [hcp] at h
      simp only [Option.bind_eq_bind, Option.some_bind] at h
      split at h
      · simp at h
      · rename_i hy
        cases h
        exact ⟨cost, inc, rfl, npNpv_mkFlows e.years hy _ _ _⟩
  · intro e fuel nodes net rep net2 nodes2 h
    unfold finishModel at h
    cases hres : resolver fuel nodes net with
    | none => rw [hres] at h; simp at h
    | some s =>
      obtain ⟨nodesR, netR⟩ := s
      rw [hres] at h
      simp only [Option.bind_eq_bind, Option.some_bind] at h
      split at h
      · simp at h
      · rename_i hy
        cases h
        refine ⟨_, _, rfl, rfl, rfl, ?_⟩
        rw [npNpv_mkFlows e.years hy]

/-- Witness for C5: both halves applied at the two-node fixture. -/
theorem npv_discounted_cash_flow_witness :
    evalCandidate econGen 3000 2 nodesA netEnabled 0 = some (-3000, nodesA, netEnabled) ∧
    (∃ cost income_per_month : ℚ,
      calculate_profit econGen 2 nodesA netEnabled 0 0 0 0 =
        some (cost, income_per_month, nodesA, netEnabled) ∧
      (-3000 : ℚ) = ∑ t ∈ Finset.range econGen.years,
        (if t = 0 then -((3000 : ℚ) + cost)
         else income_per_month * 12 - econGen.opex_ratio * ((3000 : ℚ) + cost)) /
          (1 + econGen.discount_rate) ^ t) ∧
    finishModel econGen 2 nodesA netEnabled = some (repGen, netEnabled, nodesAConn) ∧
    (∃ capex income_per_month : ℚ,
      repGen.capex = pyTrunc capex ∧
      repGen.opex = pyTrunc (econGen.opex_ratio * capex) ∧
      repGen.income = pyTrunc (income_per_month * 12) ∧
      repGen.npv = pyTrunc (∑ t ∈ Finset.range econGen.years,
        (if t = 0 then -capex
         else income_per_month * 12 - econGen.opex_ratio * capex) /
          (1 + econGen.discount_rate) ^ t)) := by
  have h1 : evalCandidate econGen 3000 2 nodesA netEnabled 0 =
      some (-3000, nodesA, netEnabled) := by
    norm_num [evalCandidate, calculate_profit, nodesA, netEnabled, econGen, pyGet, pyIdx,
      npNpv, mkFlows, num_people_per_m2, Finset.sum_range_succ, List.foldlM_cons,
      List.foldlM_nil, Option.bind_eq_bind, Option.some_bind]
  have h2 : finishModel econGen 2 nodesA netEnabled = some (repGen, netEnabled, nodesAConn) := by
    have hres : resolver 2 nodesA netEnabled = some (nodesAConn, netEnabled) := by decide
    simp only [finishModel, hres, Option.bind_eq_bind, Option.some_bind]
    norm_num [nodesAConn, netEnabled, econGen, repGen, demand_kw_peak, num_people_per_m2,
      npNpv, mkFlows, pyTrunc, Finset.sum_range_succ, List.foldl_cons, List.foldl_nil]
  exact ⟨h1,
    npv_discounted_cash_flow.1 econGen 3000 2 nodesA netEnabled 0 (-3000) nodesA netEnabled h1,
    h2,
    npv_discounted_cash_flow.2 econGen 2 nodesA netEnabled repGen netEnabled nodesAConn h2⟩

/-! The candidate scans of the Profitability Optimizer. -/

/-- Helper: `evalCandidate` returns its node and network lists
unchanged (it only wraps `calculate_profit`). -/
theorem evalCandidate_keeps_lists {e : Econ} {costGen : ℚ} {pf : Nat} {nodes : List Node}
    {net : List Arc} {cand : Int} {v : ℚ} {n2 : List Node} {w2 : List Arc}
    (h : evalCandidate e costGen pf nodes net cand = some (v, n2, w2)) :
    n2 = nodes ∧ w2 = net := by
  unfold evalCandidate at h
  cases hcp : calculate_profit e pf nodes net 0 cand 0 0 with
  | none => rw [hcp] at h; simp at h
  | some res =>
    obtain ⟨cost, inc, nds, nw⟩ := res
    rw [hcp] at h
    simp only [Option.bind_eq_bind, Option.some_bind] at h
    split at h
    · simp at h
    · cases h
      exact (calculate_profit_keeps_lists pf e nodes net 0 cand 0 0 _ hcp)

/-- Helper: one NPV-mode round returns its node and network lists
unchanged (mutation happens only after the round, when the winner is
disabled). -/
theorem npvRound_keeps_lists {e : Econ} {costGen : ℚ} {pf : Nat} {nodes0 : List Node}
    {net0 : List Arc} {best0 : ℚ} {bi0 : Option Int} {c0 : Nat} {r : RoundRes}
    (h : npvRound e costGen pf nodes0 net0 best0 bi0 c0 = some r) :
    r.nodes = nodes0 ∧ r.net = net0 := by
  unfold npvRound at h
  refine foldlM_option_inv (fun x => x.nodes = nodes0 ∧ x.net = net0) h ?_ ⟨rfl, rfl⟩
  intro b a ha hP b' hb'
  simp only at hb'
  cases hec : evalCandidate e costGen pf b.nodes b.net a.idx with
  | none => rw [hec] at hb'; simp at hb'
  | some trip =>
    obtain ⟨npv, nds, nw⟩ := trip
    rw [hec] at hb'
    simp only [Option.bind_eq_bind, Option.some_bind] at hb'
    have hfr := evalCandidate_keeps_lists hec
    split at hb' <;> cases hb' <;>
      exact ⟨hfr.1.trans hP.1, hfr.2.trans hP.2⟩

/-- Helper: a fold whose step increments the counter by exactly one on
every success adds the list length to the counter. -/
theorem foldlM_counter_succ {α : Type} {g : RoundRes → α → Option RoundRes}
    (hg : ∀ r a r2, g r a = some r2 → r2.counter = r.counter + 1) :
    ∀ (l : List α) (r0 r : RoundRes), l.foldlM g r0 = some r →
      r.counter = r0.counter + l.length := by
  intro l
  induction l with
  | nil =>
    intro r0 r h
    simp only [List.foldlM_nil, pure] at h
    cases h
    simp
  | cons a l ih =>
    intro r0 r h
    rw [List.foldlM_cons] at h
    cases hg1 : g r0 a with
    | none => rw [hg1] at h; simp at h
    | some r1 =>
      rw [hg1] at h
      simp only [Option.bind_eq_bind, Option.some_bind] at h
      rw [ih r1 r h, hg r0 a r1 hg1, List.length_cons]
      omega

/-- C1 amended: every NPV-mode round evaluates every arc of the
network as a hypothetical-removal candidate, enabled or not — the
round's own evaluation counter always grows by exactly the full arc
count. -/
theorem npvRound_evaluates_every_arc (e : Econ) (costGen : ℚ) (pf : Nat)
    (nodes0 : List Node) (net0 : List Arc) (best0 : ℚ) (bi0 : Option Int) (c0 : Nat)
    (r : RoundRes) (h : npvRound e costGen pf nodes0 net0 best0 bi0 c0 = some r) :
    r.counter = c0 + net0.length := by
  unfold npvRound at h
  refine foldlM_counter_succ ?_ net0 _ r h
  intro rr a rr2 hstep
  simp only at hstep
  cases hec : evalCandidate e costGen pf rr.nodes rr.net a.idx with
  | none => rw [hec] at hstep; simp at hstep
  | some trip =>
    obtain ⟨npv, nds, nw⟩ := trip
    rw [hec] at hstep
    simp only [Option.bind_eq_bind, Option.some_bind] at hstep
    split at hstep <;> cases hstep <;> rfl

/-- Witness for the C1 amended theorem at the disabled-arc fixture. -/
theorem npvRound_evaluates_every_arc_witness :
    npvRound econZero (cost_gen_all econZero nodesA) 2 nodesA netDisabled (-9999999) none 0 =
      some roundDisabledRes ∧ roundDisabledRes.counter = 0 + netDisabled.length := by
  have h : npvRound econZero (cost_gen_all econZero nodesA) 2 nodesA netDisabled
      (-9999999) none 0 = some roundDisabledRes := by
    norm_num [npvRound, evalCandidate, calculate_profit, nodesA, netDisabled, econZero,
      roundDisabledRes, cost_gen_all, demand_kw_peak, num_people_per_m2, pyGet, pyIdx,
      npNpv, mkFlows, Finset.sum_range_succ, List.foldlM_cons, List.foldlM_nil,
      Option.bind_eq_bind, Option.some_bind]
  exact ⟨h, npvRound_evaluates_every_arc econZero (cost_gen_all econZero nodesA) 2 nodesA
    netDisabled (-9999999) none 0 roundDisabledRes h⟩

/-- C1 counterexample: with the single arc disabled from the start,
the NPV-mode round still evaluates it (counter 1) and SELECTS it as
the round's best cut (`found`, `bestIdx = some 0`), although its
enabled flag is 0. -/
theorem npvRound_selects_disabled_arc :
    npvRound econZero (cost_gen_all econZero nodesA) 2 nodesA netDisabled (-9999999) none 0 =
      some roundDisabledRes ∧
    roundDisabledRes.found = true ∧ roundDisabledRes.bestIdx = some 0 ∧
    (pyGet netDisabled 0).map Arc.enabled = some 0 := by
  refine ⟨?_, rfl, rfl, by decide⟩
  norm_num [npvRound, evalCandidate, calculate_profit, nodesA, netDisabled, econZero,
    roundDisabledRes, cost_gen_all, demand_kw_peak, num_people_per_m2, pyGet, pyIdx,
    npNpv, mkFlows, Finset.sum_range_succ, List.foldlM_cons, List.foldlM_nil,
    Option.bind_eq_bind, Option.some_bind]

/-! Coverage-mode termination and the `-9999999` sentinel. -/

/-- C2: with economics making every candidate NPV fall below the
`-9999999` sentinel (one arc, connection cost 2×10^7, so every NPV is
-2×10^7), no coverage-mode round ever selects an arc, coverage stays
at 1 above the 1/2 target, and the loop never terminates: it returns
`none` at every fuel. -/
theorem covLoop_diverges_below_sentinel :
    ∀ fuel counter : Nat,
      covLoop econHuge (cost_gen_all econHuge nodesA) 2 (1 / 2) 1 fuel nodesA netEnabled
        counter = none := by
  intro fuel
  induction fuel with
  | zero => intro c; rfl
  | succ f ih =>
    intro c
    have hround : covRound econHuge (cost_gen_all econHuge nodesA) 2 nodesA netEnabled none c =
        some { found := false, best := -9999999, bestIdx := none, nodes := nodesA,
               net := netEnabled, counter := c + 1 } := by
      norm_num [covRound, evalCandidate, calculate_profit, nodesA, netEnabled, econHuge,
        cost_gen_all, demand_kw_peak, num_people_per_m2, pyGet, pyIdx, npNpv, mkFlows,
        Finset.sum_range_succ, List.foldlM_cons, List.foldlM_nil, Option.bind_eq_bind,
        Option.some_bind]
    rw [covLoop, hround]
    have hcov : ¬ (((netEnabled.filter fun a => a.enabled == 1).length : ℚ) / 1 ≤ 1 / 2) := by
      norm_num [netEnabled]
    simp only [Option.bind_eq_bind, Option.pure_def, Option.some_bind, Bool.false_eq_true,
      if_false, if_neg hcov]
    exact ih (c + 1)

/-- C3 amended: the best-NPV accumulator starts at the finite sentinel
`-9999999`, and when the first round finds no arc whose
hypothetical-removal NPV exceeds it, the loop stops immediately with
the network unchanged — no arc is disabled. -/
theorem npvLoop_stops_when_first_round_finds_nothing (e : Econ) (costGen : ℚ)
    (pf lf : Nat) (nodes : List Node) (net : List Arc) (counter : Nat) (r : RoundRes)
    (h : npvRound e costGen pf nodes net (-9999999) none counter = some r)
    (hf : r.found = false) :
    npvLoop e costGen pf (lf + 1) nodes net (-9999999) none counter = some (nodes, net) := by
  have hfr := npvRound_keeps_lists h
  rw [npvLoop, h]
  simp only [Option.bind_eq_bind, Option.pure_def, Option.some_bind, hf, Bool.false_eq_true,
    if_false]
  rw [hfr.1, hfr.2]

/-- Witness for the C3 amended theorem at the huge-cost fixture. -/
theorem npvLoop_stops_witness :
    npvRound econHuge (cost_gen_all econHuge nodesA) 2 nodesA netEnabled (-9999999) none 0 =
      some roundHugeRes ∧ roundHugeRes.found = false ∧
    npvLoop econHuge (cost_gen_all econHuge nodesA) 2 3 nodesA netEnabled (-9999999) none 0 =
      some (nodesA, netEnabled) := by
  have h : npvRound econHuge (cost_gen_all econHuge nodesA) 2 nodesA netEnabled
      (-9999999) none 0 = some roundHugeRes := by
    norm_num [npvRound, evalCandidate, calculate_profit, nodesA, netEnabled, econHuge,
      roundHugeRes, cost_gen_all, demand_kw_peak, num_people_per_m2, pyGet, pyIdx, npNpv,
      mkFlows, Finset.sum_range_succ, List.foldlM_cons, List.foldlM_nil,
      Option.bind_eq_bind, Option.some_bind]
  exact ⟨h, rfl,
    npvLoop_stops_when_first_round_finds_nothing econHuge (cost_gen_all econHuge nodesA)
      2 2 nodesA netEnabled 0 roundHugeRes h rfl⟩

/-- C3 counterexample: on a one-arc input whose only candidate NPV is
-2×10^7 (below the `-9999999` sentinel), the NPV-mode loop terminates
with the network unchanged — its first round disables no arc, so the
first round does NOT always commit a cut. -/
theorem npvLoop_first_round_disables_nothing :
    npvLoop econHuge (cost_gen_all econHuge nodesA) 2 3 nodesA netEnabled (-9999999) none 0 =
      some (nodesA, netEnabled) ∧
    (pyGet netEnabled 0).map Arc.enabled = some 1 ∧ netEnabled.length = 1 := by
  have hround : npvRound econHuge (cost_gen_all econHuge nodesA) 2 nodesA netEnabled
      (-9999999) none 0 = some roundHugeRes := by
    norm_num [npvRound, evalCandidate, calculate_profit, nodesA, netEnabled, econHuge,
      roundHugeRes, cost_gen_all, demand_kw_peak, num_people_per_m2, pyGet, pyIdx, npNpv,
      mkFlows, Finset.sum_range_succ, List.foldlM_cons, List.foldlM_nil,
      Option.bind_eq_bind, Option.some_bind]
  refine ⟨?_, by decide, by decide⟩
  rw [npvLoop, hround]
  simp only [Option.bind_eq_bind, Option.pure_def, Option.some_bind, roundHugeRes,
    Bool.false_eq_true, if_false]

/-! The generator term inside hypothetical evaluations. -/

/-- C4 counterexample: with one building of 20 m2 and the candidate
removal cutting it off, the code's hypothetical NPV is -3000 — it
still pays for a 3 kW generator priced from ALL nodes — while the
spec-modelled evaluation, whose generator is sized from the population
still connected under the hypothesis (none), yields 0. -/
theorem cost_gen_reflects_all_nodes_counterexample :
    evalCandidate econGen (cost_gen_all econGen nodesA) 2 nodesA netEnabled 0 =
      some (-3000, nodesA, netEnabled) ∧
    evalCandidateSpecGen econGen 2 nodesA netEnabled 0 = some 0 ∧
    cost_gen_all econGen nodesA = 3000 ∧ ((-3000 : ℚ) ≠ (0 : ℚ)) := by
  refine ⟨?_, ?_, ?_, by norm_num⟩
  · norm_num [evalCandidate, calculate_profit, nodesA, netEnabled, econGen, cost_gen_all,
      demand_kw_peak, num_people_per_m2, pyGet, pyIdx, npNpv, mkFlows, Finset.sum_range_succ,
      List.foldlM_cons, List.foldlM_nil, Option.bind_eq_bind, Option.some_bind]
  · norm_num [evalCandidateSpecGen, specConnectedArea, calculate_profit, nodesA, netEnabled,
      econGen, demand_kw_peak, num_people_per_m2, pyGet, pyIdx, npNpv, mkFlows,
      Finset.sum_range_succ, List.foldlM_cons, List.foldlM_nil, Option.bind_eq_bind,
      Option.some_bind]
  · norm_num [cost_gen_all, nodesA, econGen, demand_kw_peak, num_people_per_m2]

/-- C4 amended: every hypothetical-removal evaluation prices the
generator with the `cost_gen` computed once from the summed floor area
of ALL nodes; the hypothetical state only affects the wiring cost and
income accumulated by `calculate_profit`. -/
theorem evalCandidate_uses_all_nodes_gen (e : Econ) (pf : Nat) (nodes : List Node)
    (net : List Arc) (cand : Int) (v : ℚ) (n2 : List Node) (w2 : List Arc)
    (h : evalCandidate e (cost_gen_all e nodes) pf nodes net cand = some (v, n2, w2)) :
    ∃ cost income_per_month : ℚ,
      calculate_profit e pf nodes net 0 cand 0 0 = some (cost, income_per_month, n2, w2) ∧
      v = npNpv e.discount_rate (mkFlows e.years
        (income_per_month * 12 - e.opex_ratio * (cost_gen_all e nodes + cost))
        (cost_gen_all e nodes + cost)) ∧
      cost_gen_all e nodes =
        ((nodes.map fun n => (n.area : ℚ)).sum * num_people_per_m2 * demand_kw_peak e) *
          e.gen_cost := by
  unfold evalCandidate at h
  cases hcp : calculate_profit e pf nodes net 0 cand 0 0 with
  | none => rw [hcp] at h; simp at h
  | some res =>
    obtain ⟨cost, inc, nds, nw⟩ := res
    rw [hcp] at h
    simp only [Option.bind_eq_bind, Option.some_bind] at h
    split at h
    · simp at h
    · cases h
      exact ⟨cost, inc, rfl, rfl, rfl⟩

/-- Witness for the C4 amended theorem at the generator fixture. -/
theorem evalCandidate_uses_all_nodes_gen_witness :
    evalCandidate econGen (cost_gen_all econGen nodesA) 2 nodesA netEnabled 0 =
      some (-3000, nodesA, netEnabled) ∧
    (∃ cost income_per_month : ℚ,
      calculate_profit econGen 2 nodesA netEnabled 0 0 0 0 =
        some (cost, income_per_month, nodesA, netEnabled) ∧
      (-3000 : ℚ) = npNpv econGen.discount_rate (mkFlows econGen.years
        (income_per_month * 12 - econGen.opex_ratio * (cost_gen_all econGen nodesA + cost))
        (cost_gen_all econGen nodesA + cost)) ∧
      cost_gen_all econGen nodesA =
        ((nodesA.map fun n => (n.area : ℚ)).sum * num_people_per_m2 *
          demand_kw_peak econGen) * econGen.gen_cost) := by
  have h : evalCandidate econGen (cost_gen_all econGen nodesA) 2 nodesA netEnabled 0 =
      some (-3000, nodesA, netEnabled) := by
    norm_num [evalCandidate, calculate_profit, nodesA, netEnabled, econGen, cost_gen_all,
      demand_kw_peak, num_people_per_m2, pyGet, pyIdx, npNpv, mkFlows, Finset.sum_range_succ,
      List.foldlM_cons, List.foldlM_nil, Option.bind_eq_bind, Option.some_bind]
  exact ⟨h, evalCandidate_uses_all_nodes_gen econGen 2 nodesA netEnabled 0 (-3000) nodesA
    netEnabled h⟩

/-! Behaviour of the Network Director on a malformed spanning tree. -/

/-- C9 counterexample: on a forest whose second arc is unreachable
from the root, `direct_network` returns normally (no invariant
failure is reported) and silently leaves that arc undirected with its
`-99` sentinel endpoints. -/
theorem direct_network_silent_on_unreachable :
    direct_network 100 3 nodesForest netForest 0 = some (nodesForestDir, netForestDir) ∧
    (pyGet netForestDir 1).map Arc.directed = some 0 ∧
    (pyGet netForestDir 1).map Arc.ns = some (-99) := by
  refine ⟨by with_unfolding_all decide, by decide, by decide⟩

/-- C9 amended: the direction pass completes without any structural
check, and it is the later incident-arc registration of
`create_network` that aborts — `nodes[arc[5]]` with the `-99` sentinel
is a Python IndexError whenever the node list is shorter than 99
entries — rather than any structural-inconsistency report. -/
theorem create_network_unreachable_arc_aborts :
    direct_network 100 3 nodesForest netForest 0 = some (nodesForestDir, netForestDir) ∧
    (pyGet netForestDir 1).map Arc.directed = some 0 ∧
    addArcRefs nodesForestDir netForestDir = none ∧
    nodesForestDir.length < 99 := by
  refine ⟨by with_unfolding_all decide, by decide, by decide, by decide⟩

/-! Position and shape lemmas for the Connectivity Resolver. -/

theorem get?_pySet (l : List α) (i : Int) (x : α) (p : Nat) :
    (pySet l i x).get? p = if pyIdx l.length i = some p then some x else l.get? p := by
  unfold pySet
  cases h : pyIdx l.length i with
  | none =>
    exact (if_neg (by simp)).symm
  | some n =>
    show (l.set n x).get? p = _
    rw [List.get?_eq_getElem?, List.getElem?_set, List.get?_eq_getElem?]
    rcases eq_or_ne n p with rfl | hne
    · rw [if_pos rfl, if_pos (pyIdx_lt h), if_pos rfl]
    · rw [if_neg hne, if_neg (by simpa using hne)]

theorem pyGet_map (f : α → β) (l : List α) (i : Int) :
    pyGet (l.map f) i = (pyGet l i).map f := by
  unfold pyGet
  rw [List.length_map]
  cases pyIdx l.length i with
  | none => rfl
  | some n => simp [List.get?_map]

theorem sameShape_refl (nodes : List Node) : sameShape nodes nodes := rfl

theorem sameShape_trans {n1 n2 n3 : List Node} (h1 : sameShape n1 n2)
    (h2 : sameShape n2 n3) : sameShape n1 n3 := by
  unfold sameShape at *
  rw [h2, h1]

theorem sameShape_length {n1 n2 : List Node} (h : sameShape n1 n2) :
    n2.length = n1.length := by
  have := congrArg List.length h
  simpa using this

theorem sameShape_pyGet {n1 n2 : List Node} (h : sameShape n1 n2) {i : Int} {nd2 : Node}
    (hg : pyGet n2 i = some nd2) :
    ∃ nd1, pyGet n1 i = some nd1 ∧ stripConn nd1 = stripConn nd2 := by
  have hmap : pyGet (n2.map stripConn) i = pyGet (n1.map stripConn) i := by
    unfold sameShape at h
    rw [h]
  rw [pyGet_map, pyGet_map, hg] at hmap
  cases hg1 : pyGet n1 i with
  | none => rw [hg1] at hmap; simp at hmap
  | some nd1 =>
    rw [hg1] at hmap
    have hsc : stripConn nd2 = stripConn nd1 := by simpa using hmap
    exact ⟨nd1, rfl, hsc.symm⟩

theorem stripConn_arcs (nd : Node) : (stripConn nd).arcs = nd.arcs := rfl

/-- `ReachesT` only reads coordinates-independent structure: the
incident lists and the arcs, so it transports across `sameShape`. -/
theorem ReachesT_congr {n1 n2 : List Node} (h : sameShape n1 n2) {net : List Arc}
    {i j : Int} (hr : ReachesT n2 net i j) : ReachesT n1 net i j := by
  induction hr with
  | refl i => exact ReachesT.refl i
  | head hget hk ha hen hns _ ih =>
    obtain ⟨nd1, hg1, hs⟩ := sameShape_pyGet h hget
    have harcs := congrArg (fun n => Node.arcs n) hs
    simp only [stripConn] at harcs
    exact ReachesT.head hg1 (harcs ▸ hk) ha hen hns ih

theorem sameShape_symm {n1 n2 : List Node} (h : sameShape n1 n2) : sameShape n2 n1 := by
  unfold sameShape at *
  exact h.symm

theorem pyGet_isSome {l : List α} {i : Int} {a : α} (h : pyGet l i = some a) :
    ∃ n, pyIdx l.length i = some n ∧ l.get? n = some a := by
  unfold pyGet at h
  cases hpi : pyIdx l.length i with
  | none => rw [hpi] at h; simp at h
  | some n =>
    rw [hpi] at h
    exact ⟨n, rfl, h⟩

theorem connAt_iff_pos (nodes : List Node) (i : Int) :
    connAt nodes i ↔ ∃ p, pyIdx nodes.length i = some p ∧ connAtPos nodes p := by
  constructor
  · rintro ⟨nd, hg, hc⟩
    obtain ⟨n, hn, hgn⟩ := pyGet_isSome hg
    exact ⟨n, hn, nd, hgn, hc⟩
  · rintro ⟨p, hp, nd, hg, hc⟩
    refine ⟨nd, ?_, hc⟩
    unfold pyGet
    rw [hp]
    exact hg

theorem connAt_transfer {l l2 : List Node} {j : Int} (h : connAt l j)
    (hmono : ∀ p, connAtPos l p → connAtPos l2 p) (hlen : l2.length = l.length) :
    connAt l2 j := by
  rw [connAt_iff_pos] at h ⊢
  obtain ⟨p, hp, hc⟩ := h
  exact ⟨p, by rw [hlen]; exact hp, hmono p hc⟩

theorem connAtPos_set1 {nodes : List Node} {index : Int} (nd : Node) {n : Nat}
    (h : pyIdx nodes.length index = some n) (p : Nat) :
    connAtPos (pySet nodes index { nd with conn := 1 }) p ↔ (p = n ∨ connAtPos nodes p) := by
  unfold connAtPos
  rw [get?_pySet, h]
  rcases eq_or_ne n p with rfl | hne
  · simp
  · rw [if_neg (by simpa using hne)]
    constructor
    · rintro ⟨x, hx, hc⟩
      exact Or.inr ⟨x, hx, hc⟩
    · rintro (rfl | ⟨x, hx, hc⟩)
      · exact absurd rfl hne
      · exact ⟨x, hx, hc⟩

theorem sameShape_set1 {nodes : List Node} {index : Int} {nd : Node}
    (h : pyGet nodes index = some nd) :
    sameShape nodes (pySet nodes index { nd with conn := 1 }) := by
  unfold sameShape
  apply List.ext_get?
  intro p
  rw [List.get?_map, List.get?_map, get?_pySet]
  obtain ⟨n, hn, hgn⟩ := pyGet_isSome h
  split
  · rename_i hp
    rw [hn] at hp
    cases hp
    rw [hgn]
    rfl
  · rfl

/-- Master specification of the `connect_houses` traversal: the
network is untouched, nodes change only in their connected flags,
flags are only raised, a raised flag means the position was already
flagged or holds a traversal-reachable node, and every
traversal-reachable node ends up flagged. -/
theorem connect_houses_spec :
    ∀ (fuel : Nat) (nodes : List Node) (net : List Arc) (index : Int)
      (nodes2 : List Node) (net2 : List Arc),
      connect_houses fuel nodes net index = some (nodes2, net2) →
      net2 = net ∧ sameShape nodes nodes2 ∧
      (∀ p : Nat, connAtPos nodes p → connAtPos nodes2 p) ∧
      (∀ p : Nat, connAtPos nodes2 p →
        connAtPos nodes p ∨
          ∃ j : Int, ReachesT nodes net index j ∧ pyIdx nodes.length j = some p) ∧
      (∀ j : Int, ReachesT nodes net index j → connAt nodes2 j) := by
  intro fuel
  induction fuel with
  | zero =>
    intro nodes net index nodes2 net2 h
    simp [connect_houses] at h
  | succ fuel ih =>
    intro nodes net index nodes2 net2 h
    rw [connect_houses] at h
    cases hnd : pyGet nodes index with
    | none => rw [hnd] at h; simp at h
    | some nd =>
      rw [hnd] at h
      simp only [Option.bind_eq_bind, Option.some_bind] at h
      obtain ⟨n, hn, hgn⟩ := pyGet_isSome hnd
      have hshape1 : sameShape nodes (pySet nodes index { nd with conn := 1 }) :=
        sameShape_set1 hnd
      have hlen1 : (pySet nodes index { nd with conn := 1 }).length = nodes.length :=
        length_pySet nodes index _
      -- the basic step property, shared by all fold inductions below
      have hstep : ∀ (b b2 : List Node × List Arc) (k : Int),
          connectStep (connect_houses fuel) index b k = some b2 →
          b2.2 = b.2 ∧ sameShape b.1 b2.1 ∧
            (∀ p, connAtPos b.1 p → connAtPos b2.1 p) := by
        intro b b2 k hs
        unfold connectStep at hs
        cases ha : pyGet b.2 k with
        | none => rw [ha] at hs; simp at hs
        | some a =>
          rw [ha] at hs
          simp only [Option.bind_eq_bind, Option.some_bind] at hs
          split at hs
          · obtain ⟨hnet, hsh, hmono, _, _⟩ :=
              ih b.1 b.2 a.ne b2.1 b2.2 (by rw [← hs])
            exact ⟨hnet, hsh, hmono⟩
          · cases hs
            exact ⟨rfl, sameShape_refl _, fun p hp => hp⟩
      have hnet2 : net2 = net := by
        have := foldlM_option_inv (fun st => st.2 = net) h
          (fun b k hk hP b2 hb2 => ((hstep b b2 k hb2).1).trans hP) rfl
        exact this
      have hshape2 : sameShape nodes nodes2 := by
        have := foldlM_option_inv (fun st => sameShape nodes st.1) h
          (fun b k hk hP b2 hb2 => sameShape_trans hP (hstep b b2 k hb2).2.1) hshape1
        exact this
      have hlen2 : nodes2.length = nodes.length := sameShape_length hshape2
      have hmono1 : ∀ p, connAtPos (pySet nodes index { nd with conn := 1 }) p →
          connAtPos nodes2 p := by
        intro p
        have := foldlM_option_inv
          (fun st => ∀ q, connAtPos (pySet nodes index { nd with conn := 1 }) q →
            connAtPos st.1 q) h
          (fun b k hk hP b2 hb2 q hq => (hstep b b2 k hb2).2.2 q (hP q hq))
          (fun q hq => hq)
        exact this p
      have hmono : ∀ p, connAtPos nodes p → connAtPos nodes2 p := by
        intro p hp
        exact hmono1 p ((connAtPos_set1 nd hn p).mpr (Or.inr hp))
      have hsound : ∀ p : Nat, connAtPos nodes2 p →
          connAtPos nodes p ∨
            ∃ j : Int, ReachesT nodes net index j ∧ pyIdx nodes.length j = some p := by
        have hfold := foldlM_option_inv
          (fun st => st.2 = net ∧ sameShape nodes st.1 ∧
            ∀ p, connAtPos st.1 p →
              connAtPos nodes p ∨
                ∃ j : Int, ReachesT nodes net index j ∧ pyIdx nodes.length j = some p) h
          ?_ ?_
        · exact hfold.2.2
        · intro b k hk hP b2 hb2
          unfold connectStep at hb2
          cases ha : pyGet b.2 k with
          | none => rw [ha] at hb2; simp at hb2
          | some a =>
            rw [ha] at hb2
            simp only [Option.bind_eq_bind, Option.some_bind] at hb2
            split at hb2
            · rename_i hcond
              obtain ⟨hnet, hsh, _, hsnd, _⟩ :=
                ih b.1 b.2 a.ne b2.1 b2.2 (by rw [← hb2])
              refine ⟨hnet.trans hP.1, sameShape_trans hP.2.1 hsh, ?_⟩
              intro p hp
              rcases hsnd p hp with hold | ⟨j, hj, hjp⟩
              · exact hP.2.2 p hold
              · refine Or.inr ⟨j, ?_, ?_⟩
                · have hjn : ReachesT nodes b.2 a.ne j :=
                    ReachesT_congr hP.2.1 hj
                  rw [hP.1] at hjn
                  have hga : pyGet net k = some a := by rw [← hP.1]; exact ha
                  exact ReachesT.head hnd hk hga hcond.1 hcond.2 hjn
                · rw [← sameShape_length hP.2.1]
                  exact hjp
            · cases hb2
              exact hP
        · exact ⟨rfl, hshape1, fun p hp =>
            ((connAtPos_set1 nd hn p).mp hp).elim
              (fun hpn => Or.inr ⟨index, ReachesT.refl index, hpn ▸ hn⟩)
              Or.inl⟩
      have hcomplete : ∀ j : Int, ReachesT nodes net index j → connAt nodes2 j := by
        intro j hj
        cases hj with
        | refl =>
          rw [connAt_iff_pos]
          refine ⟨n, by rw [hlen2]; exact hn, ?_⟩
          exact hmono1 n ((connAtPos_set1 nd hn n).mpr (Or.inl rfl))
        | head hget hk hga hen hns tail =>
          rename_i k nd0 a
          have hnd0 : nd0 = nd := Option.some.inj (hget.symm.trans hnd)
          have hM := foldlM_option_mem
            (fun b b2 : List Node × List Arc => b2.2 = b.2 ∧ sameShape b.1 b2.1 ∧
              ∀ p, connAtPos b.1 p → connAtPos b2.1 p)
            (fun b => ⟨rfl, sameShape_refl _, fun p hp => hp⟩)
            (fun b1 b2 b3 h12 h23 =>
              ⟨h23.1.trans h12.1, sameShape_trans h12.2.1 h23.2.1,
               fun p hp => h23.2.2 p (h12.2.2 p hp)⟩)
            (fun b k2 b2 hg => hstep b b2 k2 hg) h k (by rw [← hnd0]; exact hk)
          obtain ⟨b, b2, hg, hM0, hMf⟩ := hM
          unfold connectStep at hg
          have hbnet : b.2 = net := hM0.1
          have hak : pyGet b.2 k = some a := by rw [hbnet]; exact hga
          rw [hak] at hg
          simp only [Option.bind_eq_bind, Option.some_bind] at hg
          rw [if_pos ⟨hen, hns⟩] at hg
          obtain ⟨_, _, _, _, hcm⟩ := ih b.1 b.2 a.ne b2.1 b2.2 (by rw [← hg])
          have hshb : sameShape nodes b.1 := sameShape_trans hshape1 hM0.2.1
          have htailb : ReachesT b.1 b.2 a.ne j := by
            rw [hbnet]
            exact ReachesT_congr (sameShape_symm hshb) tail
          have hcj : connAt b2.1 j := hcm j htailb
          have hlenb2 : nodes2.length = b2.1.length := sameShape_length hMf.2.1
          exact connAt_transfer hcj hMf.2.2 hlenb2
      exact ⟨hnet2, hshape2, hmono, hsound, hcomplete⟩

/-- When every traversal-reachable node is already flagged, the
traversal is a no-op: it returns its input state exactly. -/
theorem connect_houses_noop :
    ∀ (fuel : Nat) (nodes : List Node) (net : List Arc) (index : Int)
      (res : List Node × List Arc),
      connect_houses fuel nodes net index = some res →
      (∀ j : Int, ReachesT nodes net index j → connAt nodes j) →
      res = (nodes, net) := by
  intro fuel
  induction fuel with
  | zero =>
    intro nodes net index res h _
    simp [connect_houses] at h
  | succ fuel ih =>
    intro nodes net index res h hflag
    rw [connect_houses] at h
    cases hnd : pyGet nodes index with
    | none => rw [hnd] at h; simp at h
    | some nd =>
      rw [hnd] at h
      simp only [Option.bind_eq_bind, Option.some_bind] at h
      have hconn : nd.conn = 1 := by
        obtain ⟨nd2, hg2, hc2⟩ := hflag index (ReachesT.refl index)
        have : nd2 = nd := Option.some.inj (hg2.symm.trans hnd)
        rw [← this]
        exact hc2
      have hset : pySet nodes index { nd with conn := 1 } = nodes := by
        have hnd1 : ({ nd with conn := 1 } : Node) = nd := by
          cases nd
          simp_all
        rw [hnd1]
        exact pySet_same hnd
      rw [hset] at h
      refine foldlM_option_inv (fun st => st = (nodes, net)) h ?_ rfl
      intro b k hk hP b2 hb2
      subst hP
      unfold connectStep at hb2
      cases ha : pyGet ((nodes, net) : List Node × List Arc).2 k with
      | none => rw [ha] at hb2; simp at hb2
      | some a =>
        rw [ha] at hb2
        simp only [Option.bind_eq_bind, Option.some_bind] at hb2
        split at hb2
        · rename_i hcond
          refine ih nodes net a.ne b2 hb2 ?_
          intro j hj
          exact hflag j (ReachesT.head hnd hk ha hcond.1 hcond.2 hj)
        · cases hb2
          rfl

/-! Pointwise description of the stranded-arc pass. -/

theorem zeroArcs_length :
    ∀ (ks : List Int) (net net2 : List Arc), zeroArcs ks net = some net2 →
      net2.length = net.length := by
  intro ks net net2 h
  refine foldlM_option_inv (fun w => w.length = net.length) h ?_ rfl
  intro b k hk hP b2 hb2
  simp only at hb2
  cases ha : pyGet b k with
  | none => rw [ha] at hb2; simp at hb2
  | some a =>
    rw [ha] at hb2
    simp only [Option.bind_eq_bind, Option.some_bind, Option.pure_def] at hb2
    cases hb2
    rw [length_pySet]
    exact hP

theorem zeroArcs_get? :
    ∀ (ks : List Int) (net net2 : List Arc), zeroArcs ks net = some net2 → ∀ p : Nat,
      (inKs ks net.length p →
        net2.get? p = (net.get? p).map (fun a => { a with enabled := 0 })) ∧
      (¬ inKs ks net.length p → net2.get? p = net.get? p) := by
  intro ks
  induction ks with
  | nil =>
    intro net net2 h p
    simp only [zeroArcs, List.foldlM_nil, Option.pure_def] at h
    cases h
    constructor
    · rintro ⟨k, hk, _⟩
      cases hk
    · intro _
      rfl
  | cons k ks ih =>
    intro net net2 h p
    unfold zeroArcs at h
    rw [List.foldlM_cons] at h
    cases ha : pyGet net k with
    | none => rw [ha] at h; simp at h
    | some a =>
      rw [ha] at h
      simp only [Option.bind_eq_bind, Option.some_bind, Option.pure_def] at h
      have hrest : zeroArcs ks (pySet net k { a with enabled := 0 }) = some net2 := h
      have hlen1 : (pySet net k { a with enabled := 0 }).length = net.length :=
        length_pySet net k _
      have ihp := ih _ net2 hrest p
      obtain ⟨n, hn, hgn⟩ := pyGet_isSome ha
      rw [hlen1] at ihp
      by_cases hkp : pyIdx net.length k = some p
      · have hpn : p = n := by
          rw [hkp] at hn
          exact Option.some.inj hn
        subst hpn
        have hset : (pySet net k { a with enabled := 0 }).get? p = some { a with enabled := 0 } := by
          rw [get?_pySet, if_pos hkp]
        constructor
        · intro _
          rcases Classical.em (inKs ks net.length p) with hin | hout
          · rw [(ihp.1 hin), hset, hgn]
            rfl
          · rw [(ihp.2 hout), hset, hgn]
            rfl
        · intro hno
          exact absurd ⟨k, List.mem_cons_self k ks, hkp⟩ hno
      · have hset : (pySet net k { a with enabled := 0 }).get? p = net.get? p := by
          rw [get?_pySet, if_neg hkp]
        constructor
        · rintro ⟨k2, hk2, hk2p⟩
          rcases List.mem_cons.mp hk2 with rfl | hk2'
          · exact absurd hk2p hkp
          · rw [ihp.1 ⟨k2, hk2', hk2p⟩, hset]
        · intro hno
          have hno' : ¬ inKs ks net.length p := by
            rintro ⟨k2, hk2, hk2p⟩
            exact hno ⟨k2, List.mem_cons_of_mem _ hk2, hk2p⟩
          rw [ihp.2 hno', hset]

theorem strandedDisable_length :
    ∀ (nodes : List Node) (net net2 : List Arc), strandedDisable nodes net = some net2 →
      net2.length = net.length := by
  intro nodes net net2 h
  refine foldlM_option_inv (fun w => w.length = net.length) h ?_ rfl
  intro b nd hnd hP b2 hb2
  simp only at hb2
  split at hb2
  · rw [zeroArcs_length nd.arcs b b2 hb2]
    exact hP
  · cases hb2
    exact hP

theorem strandedDisable_get? :
    ∀ (nodes : List Node) (net net2 : List Arc), strandedDisable nodes net = some net2 →
      ∀ p : Nat,
      (strandedSet nodes net.length p →
        net2.get? p = (net.get? p).map (fun a => { a with enabled := 0 })) ∧
      (¬ strandedSet nodes net.length p → net2.get? p = net.get? p) := by
  intro nodes
  induction nodes with
  | nil =>
    intro net net2 h p
    simp only [strandedDisable, List.foldlM_nil, Option.pure_def] at h
    cases h
    constructor
    · rintro ⟨nd, hnd, _⟩
      cases hnd
    · intro _
      rfl
  | cons nd nodes ih =>
    intro net net2 h p
    unfold strandedDisable at h
    rw [List.foldlM_cons] at h
    by_cases hc : nd.conn = 0
    · rw [if_pos hc] at h
      cases hz : zeroArcs nd.arcs net with
      | none => rw [hz] at h; simp at h
      | some net1 =>
        rw [hz] at h
        simp only [Option.bind_eq_bind, Option.some_bind] at h
        have hlen1 : net1.length = net.length := zeroArcs_length _ _ _ hz
        have ihp := ih net1 net2 h p
        rw [hlen1] at ihp
        have hz? := zeroArcs_get? nd.arcs net net1 hz p
        constructor
        · rintro ⟨nd2, hnd2, hc2, hin2⟩
          rcases List.mem_cons.mp hnd2 with rfl | hnd2'
          · -- disabled by the head node
            rcases Classical.em (strandedSet nodes net.length p) with hS | hS
            · rw [ihp.1 hS, hz?.1 hin2]
              cases net.get? p <;> rfl
            · rw [ihp.2 hS, hz?.1 hin2]
          · rcases Classical.em (inKs nd.arcs net.length p) with hin | hout
            · rcases Classical.em (strandedSet nodes net.length p) with hS | hS
              · rw [ihp.1 hS, hz?.1 hin]
                cases net.get? p <;> rfl
              · rw [ihp.2 hS, hz?.1 hin]
            · rw [ihp.1 ⟨nd2, hnd2', hc2, hin2⟩, hz?.2 hout]
        · intro hno
          have hout : ¬ inKs nd.arcs net.length p := fun hin =>
            hno ⟨nd, List.mem_cons_self _ _, hc, hin⟩
          have hS : ¬ strandedSet nodes net.length p := by
            rintro ⟨nd2, hnd2, hc2, hin2⟩
            exact hno ⟨nd2, List.mem_cons_of_mem _ hnd2, hc2, hin2⟩
          rw [ihp.2 hS, hz?.2 hout]
    · rw [if_neg hc] at h
      simp only [Option.pure_def, Option.some_bind] at h
      have ihp := ih net net2 h p
      constructor
      · rintro ⟨nd2, hnd2, hc2, hin2⟩
        rcases List.mem_cons.mp hnd2 with rfl | hnd2'
        · exact absurd hc2 hc
        · exact ihp.1 ⟨nd2, hnd2', hc2, hin2⟩
      · intro hno
        refine ihp.2 ?_
        rintro ⟨nd2, hnd2, hc2, hin2⟩
        exact hno ⟨nd2, List.mem_cons_of_mem _ hnd2, hc2, hin2⟩

/-- Zeroing enabled flags can only remove traversal steps. -/
theorem ReachesT_of_zeroed {nodes : List Node} {net net1 : List Arc} {S : Nat → Prop}
    (hlen : net1.length = net.length)
    (hpt : ∀ p : Nat,
      (S p → net1.get? p = (net.get? p).map (fun a => { a with enabled := 0 })) ∧
      (¬ S p → net1.get? p = net.get? p))
    {i j : Int} (hr : ReachesT nodes net1 i j) : ReachesT nodes net i j := by
  induction hr with
  | refl i => exact ReachesT.refl i
  | head hget hk ha hen hns htail ih =>
    rename_i k2 nd2 a2
    obtain ⟨p, hp, hgp⟩ := pyGet_isSome ha
    rw [hlen] at hp
    have ha2 : pyGet net k2 = some a2 := by
      rcases Classical.em (S p) with hS | hS
      · exfalso
        have := (hpt p).1 hS
        rw [this] at hgp
        cases hg : net.get? p with
        | none => rw [hg] at hgp; simp at hgp
        | some a3 =>
          rw [hg] at hgp
          simp only [Option.map_some'] at hgp
          have : a2.enabled = 0 := by rw [← Option.some.inj hgp]
          rw [this] at hen
          exact absurd hen (by norm_num)
      · have := (hpt p).2 hS
        rw [this] at hgp
        unfold pyGet
        rw [hp]
        exact hgp
    exact ReachesT.head hget hk ha2 hen hns ih

/-- The stranded-arc pass is idempotent once the flags are fixed. -/
theorem strandedDisable_idem {nodes : List Node} {net net1 net2 : List Arc}
    (h1 : strandedDisable nodes net = some net1)
    (h2 : strandedDisable nodes net1 = some net2) : net2 = net1 := by
  have hlen1 : net1.length = net.length := strandedDisable_length _ _ _ h1
  apply List.ext_get?
  intro p
  have hp1 := strandedDisable_get? _ _ _ h1 p
  have hp2 := strandedDisable_get? _ _ _ h2 p
  rw [hlen1] at hp2
  rcases Classical.em (strandedSet nodes net.length p) with hS | hS
  · rw [hp2.1 hS, hp1.1 hS]
    cases net.get? p <;> rfl
  · rw [hp2.2 hS]

/-- C8: the Connectivity Resolver is idempotent.  A second run of
`connect_houses` from node 0 followed by the stranded-arc disabling,
with no intervening state change, returns the first run's state
exactly — in particular the same connected flags and the same enabled
flags. -/
theorem resolver_idempotent (f g : Nat) (nodes : List Node) (net : List Arc)
    (s1 s2 : List Node × List Arc) (h1 : resolver f nodes net = some s1)
    (h2 : resolver g s1.1 s1.2 = some s2) : s2 = s1 := by
  unfold resolver at h1
  cases hc1 : connect_houses f nodes net 0 with
  | none => rw [hc1] at h1; simp at h1
  | some s =>
    obtain ⟨nC, netC⟩ := s
    rw [hc1] at h1
    simp only [Option.bind_eq_bind, Option.some_bind] at h1
    have master := connect_houses_spec f nodes net 0 nC netC hc1
    have hnetC : netC = net := master.1
    rw [hnetC] at h1
    cases hsd1 : strandedDisable nC net with
    | none => rw [hsd1] at h1; simp at h1
    | some net1 =>
      rw [hsd1] at h1
      simp only [Option.pure_def, Option.some_bind, Option.some.injEq] at h1
      subst h1
      unfold resolver at h2
      dsimp only at h2
      cases hc2 : connect_houses g nC net1 0 with
      | none => rw [hc2] at h2; simp at h2
      | some s3 =>
        rw [hc2] at h2
        simp only [Option.bind_eq_bind, Option.some_bind] at h2
        have hnoop : ∀ j : Int, ReachesT nC net1 0 j → connAt nC j := by
          intro j hj
          have hlen1 : net1.length = net.length := strandedDisable_length nC net net1 hsd1
          have hj2 : ReachesT nC net 0 j :=
            ReachesT_of_zeroed hlen1 (strandedDisable_get? nC net net1 hsd1) hj
          have hj3 : ReachesT nodes net 0 j := ReachesT_congr master.2.1 hj2
          exact master.2.2.2.2 j hj3
        have hs3 : s3 = (nC, net1) := connect_houses_noop g nC net1 0 s3 hc2 hnoop
        subst hs3
        cases hsd2 : strandedDisable nC net1 with
        | none => rw [hsd2] at h2; simp at h2
        | some net2 =>
          rw [hsd2] at h2
          simp only [Option.pure_def, Option.some_bind, Option.some.injEq] at h2
          rw [← h2, strandedDisable_idem hsd1 hsd2]

/-- Witness for C8: the two-node fixture resolved twice. -/
theorem resolver_idempotent_witness :
    resolver 2 nodesA netEnabled = some (nodesAConn, netEnabled) ∧
    resolver 2 nodesAConn netEnabled = some (nodesAConn, netEnabled) ∧
    ((nodesAConn, netEnabled) : List Node × List Arc) = (nodesAConn, netEnabled) := by
  have ha : resolver 2 nodesA netEnabled = some (nodesAConn, netEnabled) := by decide
  have hb : resolver 2 nodesAConn netEnabled = some (nodesAConn, netEnabled) := by decide
  exact ⟨ha, hb,
    resolver_idempotent 2 2 nodesA netEnabled (nodesAConn, netEnabled)
      (nodesAConn, netEnabled) ha hb⟩

/-! Bridging graph reachability and traversal reachability. -/

theorem Reaches_of_ReachesT {nodes : List Node} {net : List Arc} {i j : Int}
    (h : ReachesT nodes net i j) : Reaches net i j := by
  induction h with
  | refl i => exact Reaches.refl i
  | head _ _ ha hen hns _ ih => exact Reaches.head (pyGet_mem ha) hen hns ih

theorem ReachesT_of_Reaches {nodes : List Node} {net : List Arc}
    (hwf : wfIncidence nodes net = true) {i j : Int} (h : Reaches net i j) :
    ReachesT nodes net i j := by
  induction h with
  | refl i => exact ReachesT.refl i
  | head hmem hen hns tail ih =>
    rename_i a
    have hall := List.all_eq_true.mp hwf _ hmem
    cases hg : pyGet nodes a.ns with
    | none => rw [hg] at hall; simp at hall
    | some nd =>
      rw [hg] at hall
      obtain ⟨k, hk, hka⟩ := List.any_eq_true.mp hall
      have hka' : pyGet net k = some a := of_decide_eq_true hka
      rw [← hns]
      exact ReachesT.head hg hk hka' hen rfl ih

theorem pyIdx_natCast {len : Nat} {p : Nat} (h : p < len) :
    pyIdx len (p : Int) = some p := by
  unfold pyIdx
  rw [if_pos ⟨Int.natCast_nonneg p, by exact_mod_cast h⟩]
  simp

theorem pyIdx_nonneg_inv {len : Nat} {j : Int} (h0 : 0 ≤ j) (hl : j < (len : Int)) :
    pyIdx len j = some j.toNat := by
  unfold pyIdx
  rw [if_pos ⟨h0, hl⟩]

/-- Along any traversal, the end node index is the start or some arc
end field. -/
theorem ReachesT_last {nodes : List Node} {net : List Arc} :
    ∀ {i j : Int}, ReachesT nodes net i j → j = i ∨ ∃ a ∈ net, j = a.ne ∧ a.enabled = 1 := by
  intro i j h
  induction h with
  | refl i => exact Or.inl rfl
  | head hget hk ha hen hns tail ih =>
    rename_i k nd a
    rcases ih with rfl | hrest
    · exact Or.inr ⟨a, pyGet_mem ha, rfl, hen⟩
    · exact Or.inr hrest

/-! Counting connected nodes by value and by position. -/

theorem connP_iff (l : List Node) (p : Nat) : connP l p = true ↔ connAtPos l p := by
  unfold connP connAtPos
  cases h : l.get? p with
  | none => simp
  | some nd => simp [beq_iff_eq]

theorem connP_succ (nd : Node) (l : List Node) (p : Nat) :
    connP (nd :: l) (p + 1) = connP l p := rfl

theorem countP_conn_positions :
    ∀ l : List Node, (l.countP fun nd => nd.conn == 1) =
      (List.range l.length).countP (fun p => connP l p) := by
  intro l
  induction l with
  | nil => rfl
  | cons nd l ih =>
    rw [List.countP_cons, List.length_cons, List.range_succ_eq_map, List.countP_cons,
      List.countP_map]
    have hc : (List.range l.length).countP ((fun p => connP (nd :: l) p) ∘ Nat.succ) =
        (List.range l.length).countP (fun p => connP l p) := by
      refine List.countP_congr ?_
      intro p _
      rw [Function.comp_apply, connP_succ]
    rw [hc, ← ih]
    rfl

theorem countP_range_split_zero (len : Nat) (q : Nat → Bool) (h0 : q 0 = true)
    (hlen : 0 < len) :
    (List.range len).countP q =
      1 + (List.range len).countP (fun p => decide (p ≠ 0) && q p) := by
  obtain ⟨m, rfl⟩ : ∃ m, len = m + 1 := ⟨len - 1, by omega⟩
  rw [List.range_succ_eq_map, List.countP_cons, List.countP_cons, List.countP_map,
    List.countP_map]
  rw [h0]
  have : (List.range m).countP ((fun p => decide (p ≠ 0) && q p) ∘ Nat.succ) =
      (List.range m).countP (q ∘ Nat.succ) := by
    refine List.countP_congr ?_
    intro p _
    simp
  rw [this]
  simp
  omega

/-- The aggregation loop of the Reporter (lines 425-429), described by
count / filtered sums. -/
theorem report_fold (e : Econ) :
    ∀ (l : List Node) (acc : Int × ℚ × ℚ),
      l.foldl (fun (acc : Int × ℚ × ℚ) nd =>
        if nd.conn = 1 then
          (acc.1 + 1,
           acc.2.1 + (nd.area : ℚ) * num_people_per_m2 * e.demand * e.tariff,
           acc.2.2 + (nd.area : ℚ) * num_people_per_m2 * demand_kw_peak e)
        else acc) acc =
      (acc.1 + ((l.countP fun nd => nd.conn == 1 : Nat) : Int),
       acc.2.1 + ((l.filter fun nd => nd.conn == 1).map fun nd =>
         (nd.area : ℚ) * num_people_per_m2 * e.demand * e.tariff).sum,
       acc.2.2 + ((l.filter fun nd => nd.conn == 1).map fun nd =>
         (nd.area : ℚ) * num_people_per_m2 * demand_kw_peak e).sum) := by
  intro l
  induction l with
  | nil =>
    intro acc
    simp
  | cons nd l ih =>
    intro acc
    rw [List.foldl_cons]
    by_cases hc : nd.conn = 1
    · rw [if_pos hc, ih, List.countP_cons, List.filter_cons]
      have hb : (nd.conn == 1) = true := by simp [hc]
      rw [hb]
      simp only [if_true, List.map_cons, List.sum_cons]
      refine Prod.ext ?_ (Prod.ext ?_ ?_) <;> push_cast <;> ring
    · rw [if_neg hc, ih, List.countP_cons, List.filter_cons]
      have hb : (nd.conn == 1) = false := by simp [hc]
      rw [hb]
      simp

theorem connect_houses_some_root {fuel : Nat} {nodes : List Node} {net : List Arc}
    {idx : Int} {s : List Node × List Arc} (h : connect_houses fuel nodes net idx = some s) :
    ∃ nd, pyGet nodes idx = some nd := by
  cases fuel with
  | zero => simp [connect_houses] at h
  | succ f =>
    rw [connect_houses] at h
    cases hg : pyGet nodes idx with
    | none => rw [hg] at h; simp at h
    | some nd => exact ⟨nd, rfl⟩

theorem Reaches_last {net : List Arc} {i j : Int} (h : Reaches net i j) :
    j = i ∨ ∃ a ∈ net, j = a.ne := by
  induction h with
  | refl i => exact Or.inl rfl
  | head hmem hen hns tail ih =>
    rename_i a
    rcases ih with rfl | hrest
    · exact Or.inr ⟨a, hmem, rfl⟩
    · exact Or.inr hrest

/-- What the full Connectivity Resolver guarantees about its node
output. -/
theorem resolver_spec (fuel : Nat) (nodes : List Node) (net : List Arc)
    (nC : List Node) (netR : List Arc) (h : resolver fuel nodes net = some (nC, netR)) :
    sameShape nodes nC ∧
    (∀ j : Int, ReachesT nodes net 0 j → connAt nC j) ∧
    (∀ p : Nat, connAtPos nC p →
      connAtPos nodes p ∨
        ∃ j : Int, ReachesT nodes net 0 j ∧ pyIdx nodes.length j = some p) ∧
    (∃ nd, pyGet nodes 0 = some nd) := by
  unfold resolver at h
  cases hc : connect_houses fuel nodes net 0 with
  | none => rw [hc] at h; simp at h
  | some s =>
    obtain ⟨nCC, netC⟩ := s
    rw [hc] at h
    simp only [Option.bind_eq_bind, Option.some_bind] at h
    have master := connect_houses_spec fuel nodes net 0 nCC netC hc
    cases hsd : strandedDisable nCC netC with
    | none => rw [hsd] at h; simp at h
    | some net1 =>
      rw [hsd] at h
      simp only [Option.pure_def, Option.some_bind, Option.some.injEq, Prod.mk.injEq] at h
      obtain ⟨hn1, hn2⟩ := h
      subst hn1
      subst hn2
      exact ⟨master.2.1, master.2.2.2.2, master.2.2.2.1, connect_houses_some_root hc⟩

/-- Characterisation of the connected flags the Resolver leaves when it
starts from all-clear flags on a well-registered network: the root's
position plus exactly the positions of nodes reachable through enabled
arcs. -/
theorem resolver_flag_charact (fuel : Nat) (nodes : List Node) (net : List Arc)
    (nC : List Node) (netR : List Arc) (h : resolver fuel nodes net = some (nC, netR))
    (hflags : ∀ nd ∈ nodes, nd.conn = 0)
    (hwf : wfIncidence nodes net = true)
    (hIds : ∀ a ∈ net, 0 ≤ a.ne ∧ a.ne < (nodes.length : Int)) :
    ∀ p : Nat, connAtPos nC p ↔ (p = 0 ∨ (p ≠ 0 ∧ Reaches net 0 (p : Int))) := by
  obtain ⟨hshape, hcm, hsound, nd0, hnd0⟩ := resolver_spec fuel nodes net nC netR h
  obtain ⟨n0, hn0, _⟩ := pyGet_isSome hnd0
  have hlen0 : 0 < nodes.length := by
    have := pyIdx_lt hn0
    omega
  have hn0' : pyIdx nodes.length 0 = some 0 := by
    unfold pyIdx
    rw [if_pos ⟨le_refl 0, by exact_mod_cast hlen0⟩]
    rfl
  have hlenC : nC.length = nodes.length := sameShape_length hshape
  intro p
  constructor
  · intro hp
    rcases hsound p hp with hold | ⟨j, hj, hjp⟩
    · obtain ⟨nd, hnd, hc1⟩ := hold
      have := hflags nd (List.get?_mem hnd)
      rw [this] at hc1
      cases hc1
    · rcases ReachesT_last hj with rfl | ⟨a, hamem, hane, _⟩
      · rw [hn0'] at hjp
        exact Or.inl (Option.some.inj hjp).symm
      · rcases eq_or_ne p 0 with rfl | hp0
        · exact Or.inl rfl
        · refine Or.inr ⟨hp0, ?_⟩
          obtain ⟨hne0, hnel⟩ := hIds a hamem
          rw [← hane] at hne0 hnel
          rw [pyIdx_nonneg_inv hne0 hnel] at hjp
          have hpj : (p : Int) = j := by
            rw [← Option.some.inj hjp, Int.toNat_of_nonneg hne0]
          rw [hpj]
          exact Reaches_of_ReachesT hj
  · rintro (rfl | ⟨hp0, hreach⟩)
    · have hc0 : connAt nC 0 := hcm 0 (ReachesT.refl 0)
      rw [connAt_iff_pos] at hc0
      obtain ⟨q, hq, hcq⟩ := hc0
      rw [hlenC, hn0'] at hq
      cases Option.some.inj hq
      exact hcq
    · have hplen : (p : Int) < (nodes.length : Int) := by
        rcases Reaches_last hreach with hpz | ⟨a, hamem, hane⟩
        · exfalso
          exact hp0 (by exact_mod_cast hpz)
        · rw [hane]
          exact (hIds a hamem).2
      have hplen' : p < nodes.length := by exact_mod_cast hplen
      have hcp : connAt nC (p : Int) :=
        hcm (p : Int) (ReachesT_of_Reaches hwf hreach)
      rw [connAt_iff_pos] at hcp
      obtain ⟨q, hq, hcq⟩ := hcp
      rw [hlenC, pyIdx_natCast hplen'] at hq
      cases Option.some.inj hq
      exact hcq

theorem connAtPos_lt {l : List Node} {p : Nat} (h : connAtPos l p) : p < l.length := by
  obtain ⟨nd, hg, _⟩ := h
  by_contra hge
  rw [List.get?_eq_getElem?, List.getElem?_eq_none (by omega)] at hg
  cases hg

/-- C10: whenever `run_model` reaches its final reporting pass (the
resolver plus the summary aggregation) on a pipeline state — all
connected flags clear, incident lists registering every arc, arc end
indices in range — node 0 ends up marked connected, the reported
`connected` figure (count of connected nodes minus one) is
non-negative and equals exactly the number of non-root nodes reachable
from the root through enabled arcs, and the reported income and
generator size aggregate only over nodes whose connected flag is
set. -/
theorem finishModel_report_spec (e : Econ) (fuel : Nat) (nodes : List Node) (net : List Arc)
    (rep : Report) (net2 : List Arc) (nodes2 : List Node)
    (h : finishModel e fuel nodes net = some (rep, net2, nodes2))
    (hflags : ∀ nd ∈ nodes, nd.conn = 0)
    (hwf : wfIncidence nodes net = true)
    (hIds : ∀ a ∈ net, 0 ≤ a.ne ∧ a.ne < (nodes.length : Int)) :
    (∃ nd0, pyGet nodes2 0 = some nd0 ∧ nd0.conn = 1) ∧
    0 ≤ rep.connected ∧
    rep.connected = (({p : ℕ | p ≠ 0 ∧ Reaches net 0 (p : Int)}).ncard : Int) ∧
    rep.income = pyTrunc
      (((nodes2.filter fun nd => nd.conn == 1).map fun nd =>
        (nd.area : ℚ) * num_people_per_m2 * e.demand * e.tariff).sum * 12) ∧
    rep.gen_size = pyTrunc
      (((nodes2.filter fun nd => nd.conn == 1).map fun nd =>
        (nd.area : ℚ) * num_people_per_m2 * demand_kw_peak e).sum) := by
  unfold finishModel at h
  cases hres : resolver fuel nodes net with
  | none => rw [hres] at h; simp at h
  | some s =>
    obtain ⟨nC, netR⟩ := s
    rw [hres] at h
    simp only [Option.bind_eq_bind, Option.some_bind] at h
    split at h
    · simp at h
    · rename_i hy
      cases h
      obtain ⟨hshape, hcm, hsound, nd0, hnd0⟩ := resolver_spec fuel nodes net nodes2 net2 hres
      have hchar := resolver_flag_charact fuel nodes net nodes2 net2 hres hflags hwf hIds
      obtain ⟨n0, hn0, _⟩ := pyGet_isSome hnd0
      have hlen0 : 0 < nodes.length := by
        have := pyIdx_lt hn0
        omega
      have hlenC : nodes2.length = nodes.length := sameShape_length hshape
      have hfold := report_fold e nodes2 (0, 0, 0)
      have hroot : connAtPos nodes2 0 := (hchar 0).mpr (Or.inl rfl)
      have hconnP0 : connP nodes2 0 = true := (connP_iff nodes2 0).mpr hroot
      have hsplit : (List.range nodes.length).countP (fun p => connP nodes2 p) =
          1 + (List.range nodes.length).countP (fun p => decide (p ≠ 0) && connP nodes2 p) :=
        countP_range_split_zero nodes.length (fun p => connP nodes2 p) hconnP0 hlen0
      have hcnt : (nodes2.countP fun nd => nd.conn == 1) =
          1 + (List.range nodes.length).countP (fun p => decide (p ≠ 0) && connP nodes2 p) := by
        rw [countP_conn_positions nodes2, hlenC, hsplit]
      have hset : {p : ℕ | p ≠ 0 ∧ Reaches net 0 (p : Int)} =
          ↑(((List.range nodes.length).filter
            (fun p => decide (p ≠ 0) && connP nodes2 p)).toFinset) := by
        ext p
        simp only [Set.mem_setOf_eq, Finset.mem_coe, List.mem_toFinset, List.mem_filter,
          List.mem_range, Bool.and_eq_true, decide_eq_true_eq]
        constructor
        · rintro ⟨hp0, hre⟩
          have hconn : connAtPos nodes2 p := (hchar p).mpr (Or.inr ⟨hp0, hre⟩)
          have hplen : p < nodes.length := by
            have := connAtPos_lt hconn
            omega
          exact ⟨hplen, hp0, (connP_iff _ _).mpr hconn⟩
        · rintro ⟨hplen, hp0, hconnP⟩
          rcases (hchar p).mp ((connP_iff _ _).mp hconnP) with rfl | ⟨_, hre⟩
          · exact absurd rfl hp0
          · exact ⟨hp0, hre⟩
      have hncard : ({p : ℕ | p ≠ 0 ∧ Reaches net 0 (p : Int)}).ncard =
          (List.range nodes.length).countP (fun p => decide (p ≠ 0) && connP nodes2 p) := by
        rw [hset, Set.ncard_coe_Finset,
          List.toFinset_card_of_nodup (List.Nodup.filter _ (List.nodup_range _)),
          ← List.countP_eq_length_filter]
      refine ⟨hcm 0 (ReachesT.refl 0), ?_, ?_, ?_, ?_⟩
      · show 0 ≤ (nodes2.foldl _ ((0 : Int), (0 : ℚ), (0 : ℚ))).1 - 1
        rw [hfold]
        simp only [zero_add]
        rw [hcnt]
        push_cast
        omega
      · show (nodes2.foldl _ ((0 : Int), (0 : ℚ), (0 : ℚ))).1 - 1 = _
        rw [hfold]
        simp only [zero_add]
        rw [hcnt, hncard]
        push_cast
        ring
      · show pyTrunc ((nodes2.foldl _ ((0 : Int), (0 : ℚ), (0 : ℚ))).2.1 * 12) = _
        rw [hfold]
        simp only [zero_add]
      · show pyTrunc ((nodes2.foldl _ ((0 : Int), (0 : ℚ), (0 : ℚ))).2.2) = _
        rw [hfold]
        simp only [zero_add]

/-- Witness for C10 at the two-node fixture. -/
theorem finishModel_report_spec_witness :
    finishModel econGen 2 nodesA netEnabled = some (repGen, netEnabled, nodesAConn) ∧
    (∀ nd ∈ nodesA, nd.conn = 0) ∧
    wfIncidence nodesA netEnabled = true ∧
    (∀ a ∈ netEnabled, 0 ≤ a.ne ∧ a.ne < (nodesA.length : Int)) ∧
    ((∃ nd0, pyGet nodesAConn 0 = some nd0 ∧ nd0.conn = 1) ∧
     0 ≤ repGen.connected ∧
     repGen.connected = (({p : ℕ | p ≠ 0 ∧ Reaches netEnabled 0 (p : Int)}).ncard : Int) ∧
     repGen.income = pyTrunc (((nodesAConn.filter fun nd => nd.conn == 1).map fun nd =>
       (nd.area : ℚ) * num_people_per_m2 * econGen.demand * econGen.tariff).sum * 12) ∧
     repGen.gen_size = pyTrunc (((nodesAConn.filter fun nd => nd.conn == 1).map fun nd =>
       (nd.area : ℚ) * num_people_per_m2 * demand_kw_peak econGen).sum)) := by
  have hres : resolver 2 nodesA netEnabled = some (nodesAConn, netEnabled) := by decide
  have hfm : finishModel econGen 2 nodesA netEnabled =
      some (repGen, netEnabled, nodesAConn) := by
    simp only [finishModel, hres, Option.bind_eq_bind, Option.some_bind]
    norm_num [nodesAConn, netEnabled, econGen, repGen, demand_kw_peak, num_people_per_m2,
      npNpv, mkFlows, pyTrunc, Finset.sum_range_succ, List.foldl_cons, List.foldl_nil]
  exact ⟨hfm, by decide, by decide, by decide,
    finishModel_report_spec econGen 2 nodesA netEnabled repGen netEnabled nodesAConn hfm
      (by decide) (by decide) (by decide)⟩

/-! Helper lemmas for the `direct_network` verification. -/

theorem get?_some_lt {l : List α} {n : Nat} {a : α} (h : l.get? n = some a) :
    n < l.length := by
  rcases List.get?_eq_some.mp h with ⟨hl, _⟩
  exact hl

theorem stripDist_fields {n1 n2 : Node} (h : stripDist n1 = stripDist n2) :
    n1.idx = n2.idx ∧ n1.x = n2.x ∧ n1.y = n2.y ∧ n1.area = n2.area ∧
    n1.conn = n2.conn ∧ n1.arcs = n2.arcs := by
  cases n1
  cases n2
  simp only [stripDist, Node.mk.injEq] at h ⊢
  tauto

theorem distAgree_length {nodes l : List Node} (h : distAgree nodes l) :
    l.length = nodes.length := by
  have := congrArg List.length h
  simpa using this

theorem distAgree_get? {nodes l : List Node} (h : distAgree nodes l) (q : Nat) :
    (l.get? q).map stripDist = (nodes.get? q).map stripDist := by
  have := congrArg (fun v => v.get? q) h
  simpa [List.get?_map] using this

theorem distAgree_some {nodes l : List Node} (h : distAgree nodes l) {q : Nat} {nd : Node}
    (hg : l.get? q = some nd) :
    ∃ nd0, nodes.get? q = some nd0 ∧ stripDist nd = stripDist nd0 := by
  have h2 := distAgree_get? h q
  rw [hg] at h2
  cases hg0 : nodes.get? q with
  | none => rw [hg0] at h2; cases h2
  | some nd0 =>
    rw [hg0] at h2
    exact ⟨nd0, rfl, by simpa using h2⟩

theorem distAgree_some_orig {nodes l : List Node} (h : distAgree nodes l) {q : Nat}
    {nd0 : Node} (hg : nodes.get? q = some nd0) :
    ∃ nd, l.get? q = some nd ∧ stripDist nd = stripDist nd0 := by
  have h2 := distAgree_get? h q
  rw [hg] at h2
  cases hg1 : l.get? q with
  | none => rw [hg1] at h2; cases h2
  | some nd =>
    rw [hg1] at h2
    exact ⟨nd, rfl, by simpa using h2⟩

theorem distAgree_set {nodes l : List Node} (h : distAgree nodes l) {w : Nat} {ndB : Node}
    (hg : l.get? w = some ndB) {nd2 : Node} (hs : stripDist nd2 = stripDist ndB) :
    distAgree nodes (pySet l (w : Int) nd2) := by
  have hw : w < l.length := get?_some_lt hg
  unfold pySet
  rw [pyIdx_natCast hw]
  unfold distAgree at h ⊢
  rw [← h]
  apply List.ext_get?
  intro m
  rcases eq_or_ne w m with rfl | hne
  · rw [List.get?_map, List.get?_map, List.get?_eq_getElem?, List.get?_eq_getElem?,
      List.getElem?_set_self hw, ← List.get?_eq_getElem?, hg]
    simp [hs]
  · rw [List.get?_map, List.get?_map, List.get?_eq_getElem?, List.get?_eq_getElem?,
      List.getElem?_set_ne hne]

theorem find_enumFrom_spec :
    ∀ (l : List Node) (k : Nat) (X Y : Int) (w : Nat) (ndB : Node),
    l.get? w = some ndB → ndB.x = X → ndB.y = Y →
    (∀ q nd2, l.get? q = some nd2 → nd2.x = X → nd2.y = Y → q = w) →
    (List.enumFrom k l).find? (fun pn => pn.2.x = X && pn.2.y = Y) = some (k + w, ndB) := by
  intro l
  induction l with
  | nil => intro k X Y w ndB hg; cases hg
  | cons nd l ih =>
    intro k X Y w ndB hg hx hy huniq
    rw [List.enumFrom_cons]
    by_cases hm : nd.x = X ∧ nd.y = Y
    · have hw0 : (0 : Nat) = w := huniq 0 nd rfl hm.1 hm.2
      have hnd : nd = ndB := by
        rw [← hw0] at hg
        simpa using hg
      rw [List.find?_cons_of_pos]
      · rw [← hw0, hnd]
        simp
      · simp [hm.1, hm.2]
    · have hwne : w ≠ 0 := by
        intro h0
        rw [h0] at hg
        have hnd2 : nd = ndB := by simpa using hg
        rw [hnd2] at hm
        exact hm ⟨hx, hy⟩
      obtain ⟨w2, rfl⟩ : ∃ w2, w = w2 + 1 := ⟨w - 1, by omega⟩
      rw [List.find?_cons_of_neg]
      · have := ih (k + 1) X Y w2 ndB hg hx hy
          (fun q nd2 hq hqx hqy => by
            have := huniq (q + 1) nd2 hq hqx hqy
            omega)
        have hk : k + 1 + w2 = k + (w2 + 1) := by omega
        rw [this, hk]
      · simp only [Bool.and_eq_true, decide_eq_true_eq, not_and]
        intro h1 h2
        exact hm ⟨h1, h2⟩

theorem findNodeAt_spec {l : List Node} {X Y : Int} {w : Nat} {ndB : Node}
    (hg : l.get? w = some ndB) (hx : ndB.x = X) (hy : ndB.y = Y)
    (huniq : ∀ q nd2, l.get? q = some nd2 → nd2.x = X → nd2.y = Y → q = w) :
    findNodeAt l X Y = some (w, ndB) := by
  unfold findNodeAt
  have := find_enumFrom_spec l 0 X Y w ndB hg hx hy huniq
  simpa [List.enum] using this

theorem touch_endpoint {nodes : List Node} {net : List Arc} {r α β q : Nat} {a : Arc}
    (hinj : coordInj nodes) (hr : net.get? r = some a) (he : undirEdge nodes α β a)
    (ht : Touches nodes net r q) : q = α ∨ q = β := by
  obtain ⟨a2, nd, hr2, hq, hside⟩ := ht
  rw [hr] at hr2
  cases hr2
  obtain ⟨_, _, ndP, ndQ, hP, hQ, hor⟩ := he
  rcases hor with ⟨h1, h2, h3, h4⟩ | ⟨h1, h2, h3, h4⟩
  · rcases hside with ⟨hx, hy⟩ | ⟨hx, hy⟩
    · exact Or.inl (hinj q α nd ndP hq hP (by rw [← hx, h1]) (by rw [← hy, h2]))
    · exact Or.inr (hinj q β nd ndQ hq hQ (by rw [← hx, h3]) (by rw [← hy, h4]))
  · rcases hside with ⟨hx, hy⟩ | ⟨hx, hy⟩
    · exact Or.inr (hinj q β nd ndQ hq hQ (by rw [← hx, h1]) (by rw [← hy, h2]))
    · exact Or.inl (hinj q α nd ndP hq hP (by rw [← hx, h3]) (by rw [← hy, h4]))

theorem touch_of_undirEdge {nodes : List Node} {net : List Arc} {r α β : Nat} {a : Arc}
    (hr : net.get? r = some a) (he : undirEdge nodes α β a) :
    Touches nodes net r α ∧ Touches nodes net r β := by
  obtain ⟨_, _, ndP, ndQ, hP, hQ, hor⟩ := he
  rcases hor with ⟨h1, h2, h3, h4⟩ | ⟨h1, h2, h3, h4⟩
  · exact ⟨⟨a, ndP, hr, hP, Or.inl ⟨h1, h2⟩⟩, ⟨a, ndQ, hr, hQ, Or.inr ⟨h3, h4⟩⟩⟩
  · exact ⟨⟨a, ndP, hr, hP, Or.inr ⟨h3, h4⟩⟩, ⟨a, ndQ, hr, hQ, Or.inl ⟨h1, h2⟩⟩⟩

theorem sizeT_pos (t : RTree) : 1 ≤ sizeT t := by
  cases t with
  | mk p f => simp [sizeT]

theorem pos_mem_nodesOfT (t : RTree) : t.pos ∈ nodesOfT t := by
  cases t with
  | mk p f => simp [nodesOfT, RTree.pos]

theorem topArcs_sub_arcs : ∀ (G : RForest) (r : Nat), r ∈ topArcsF G → r ∈ arcsOfF G := by
  have key : ∀ (n : Nat) (G : RForest), sizeF G ≤ n → ∀ r, r ∈ topArcsF G → r ∈ arcsOfF G := by
    intro n
    induction n with
    | zero =>
      intro G hsz r h
      cases G with
      | nil => cases h
      | cons r2 t f =>
        exfalso
        have := sizeT_pos t
        simp [sizeF] at hsz
        omega
    | succ n ih =>
      intro G hsz r h
      cases G with
      | nil => cases h
      | cons r2 t f =>
        have hszf : sizeF f ≤ n := by
          have := sizeT_pos t
          simp [sizeF] at hsz
          omega
        rcases List.mem_cons.mp h with rfl | h
        · exact List.mem_cons_self _ _
        · exact List.mem_cons.mpr (Or.inr (List.mem_append.mpr (Or.inr (ih f hszf r h))))
  exact fun G => key (sizeF G) G le_rfl

theorem perm_append_swap (A B C : List α) : (A ++ (B ++ C)).Perm (B ++ (A ++ C)) := by
  rw [← List.append_assoc, ← List.append_assoc]
  exact (List.perm_append_comm).append_right C

theorem rep_mem_bounds {nodes : List Node} {net : List Arc} :
    ∀ (n : Nat) (G : RForest) (u : Nat), sizeF G ≤ n → repF nodes net u G →
    (∀ r ∈ arcsOfF G, ∃ a, net.get? r = some a) ∧
    (∀ q ∈ nodesOfF G, ∃ nd, nodes.get? q = some nd) := by
  intro n
  induction n with
  | zero =>
    intro G u hsz _
    cases G with
    | nil => exact ⟨fun r h => absurd h (by simp [arcsOfF]), fun q h => absurd h (by simp [nodesOfF])⟩
    | cons r t f =>
      exfalso
      have := sizeT_pos t
      simp [sizeF] at hsz
      omega
  | succ n ih =>
    intro G u hsz hrep
    cases G with
    | nil => exact ⟨fun r h => absurd h (by simp [arcsOfF]), fun q h => absurd h (by simp [nodesOfF])⟩
    | cons r t f =>
      obtain ⟨⟨a, hra, hedge⟩, hrt, hrf⟩ := hrep
      cases t with
      | mk w Fw =>
        obtain ⟨⟨ndw, hndw⟩, hrw⟩ := hrt
        have hszf : sizeF f ≤ n := by
          have := sizeT_pos (RTree.mk w Fw)
          simp [sizeF] at hsz ⊢
          omega
        have hszw : sizeF Fw ≤ n := by
          simp [sizeF, sizeT] at hsz ⊢
          omega
        have ihw := ih Fw w hszw hrw
        have ihf := ih f u hszf hrf
        constructor
        · intro r2 hr2
          simp only [arcsOfF, arcsOfT, List.mem_cons, List.mem_append] at hr2
          rcases hr2 with rfl | hr2 | hr2
          · exact ⟨a, hra⟩
          · exact ihw.1 r2 hr2
          · exact ihf.1 r2 hr2
        · intro q hq
          simp only [nodesOfF, nodesOfT, List.mem_append, List.mem_cons] at hq
          rcases hq with (rfl | hq) | hq
          · exact ⟨ndw, hndw⟩
          · exact ihw.2 q hq
          · exact ihf.2 q hq

theorem touch_forest {nodes : List Node} {net : List Arc} (hinj : coordInj nodes) :
    ∀ (n : Nat) (G : RForest) (u : Nat), sizeF G ≤ n → repF nodes net u G →
    ∀ r q, r ∈ arcsOfF G → Touches nodes net r q → q = u ∨ q ∈ nodesOfF G := by
  intro n
  induction n with
  | zero =>
    intro G u hsz _ r q hr _
    cases G with
    | nil => exact absurd hr (by simp [arcsOfF])
    | cons r2 t f =>
      exfalso
      have := sizeT_pos t
      simp [sizeF] at hsz
      omega
  | succ n ih =>
    intro G u hsz hrep r q hr ht
    cases G with
    | nil => exact absurd hr (by simp [arcsOfF])
    | cons r2 t f =>
      obtain ⟨⟨a, hra, hedge⟩, hrt, hrf⟩ := hrep
      cases t with
      | mk w Fw =>
        obtain ⟨⟨ndw, hndw⟩, hrw⟩ := hrt
        have hszf : sizeF f ≤ n := by
          have := sizeT_pos (RTree.mk w Fw)
          simp [sizeF] at hsz ⊢
          omega
        have hszw : sizeF Fw ≤ n := by
          simp [sizeF, sizeT] at hsz ⊢
          omega
        simp only [arcsOfF, arcsOfT, List.mem_cons, List.mem_append] at hr
        simp only [nodesOfF, nodesOfT, List.mem_append, List.mem_cons]
        rcases hr with rfl | hr | hr
        · rcases touch_endpoint hinj hra hedge ht with h | h
          · exact Or.inl h
          · exact Or.inr (Or.inl (Or.inl (by simpa [RTree.pos] using h)))
        · rcases ih Fw w hszw hrw r q hr ht with h | h
          · exact Or.inr (Or.inl (Or.inl h))
          · exact Or.inr (Or.inl (Or.inr h))
        · rcases ih f u hszf hrf r q hr ht with h | h
          · exact Or.inl h
          · exact Or.inr (Or.inr h)

theorem touch_tree {nodes : List Node} {net : List Arc} (hinj : coordInj nodes)
    {t : RTree} (hrep : repT nodes net t) {r q : Nat} (hr : r ∈ arcsOfT t)
    (ht : Touches nodes net r q) : q ∈ nodesOfT t := by
  cases t with
  | mk w Fw =>
    obtain ⟨_, hrw⟩ := hrep
    have := touch_forest hinj (sizeF Fw) Fw w le_rfl hrw r q (by simpa [arcsOfT] using hr) ht
    simpa [nodesOfT] using this

theorem done_preserve {nodes : List Node} {net : List Arc} {maxTot : ℚ} :
    ∀ (n : Nat) (G : RForest) (u : Nat) (d : ℚ) (s s2 : List Node × List Arc),
    sizeF G ≤ n → doneF nodes net maxTot u d G s →
    (∀ r, r ∈ arcsOfF G → s2.2.get? r = s.2.get? r) →
    (∀ q, q ∈ nodesOfF G → s2.1.get? q = s.1.get? q) →
    doneF nodes net maxTot u d G s2 := by
  intro n
  induction n with
  | zero =>
    intro G u d s s2 hsz hdone _ _
    cases G with
    | nil => trivial
    | cons r t f =>
      exfalso
      have := sizeT_pos t
      simp [sizeF] at hsz
      omega
  | succ n ih =>
    intro G u d s s2 hsz hdone harc hnode
    cases G with
    | nil => trivial
    | cons r t f =>
      obtain ⟨⟨a0, a, ha0, ha, hdir, hns, hne, hlen, hen, ⟨ndW, hndW, hmarg, htot⟩, hsub⟩, hrest⟩ := hdone
      cases t with
      | mk w Fw =>
        have hszf : sizeF f ≤ n := by
          have := sizeT_pos (RTree.mk w Fw)
          simp [sizeF] at hsz
          omega
        have hszw : sizeF Fw ≤ n := by
          simp [sizeF, sizeT] at hsz
          omega
        refine ⟨⟨a0, a, ha0, ?_, hdir, hns, hne, hlen, hen, ⟨ndW, ?_, hmarg, htot⟩, ?_⟩, ?_⟩
        · rw [harc r (by simp [arcsOfF]), ha]
        · have hmem : (RTree.mk w Fw).pos ∈ nodesOfF (RForest.cons r (RTree.mk w Fw) f) := by
            simp [nodesOfF, nodesOfT, RTree.pos]
          rw [hnode _ hmem, hndW]
        · have harcw : ∀ r2, r2 ∈ arcsOfF Fw → s2.2.get? r2 = s.2.get? r2 := by
            intro r2 hr2
            apply harc
            simp only [arcsOfF, arcsOfT, List.mem_cons, List.mem_append]
            exact Or.inr (Or.inl hr2)
          have hnodew : ∀ q, q ∈ nodesOfF Fw → s2.1.get? q = s.1.get? q := by
            intro q hq
            apply hnode
            simp only [nodesOfF, nodesOfT, List.mem_append, List.mem_cons]
            exact Or.inl (Or.inr hq)
          exact ih Fw w (d + a0.len) s s2 hszw hsub harcw hnodew
        · have harcf : ∀ r2, r2 ∈ arcsOfF f → s2.2.get? r2 = s.2.get? r2 := by
            intro r2 hr2
            apply harc
            simp only [arcsOfF, arcsOfT, List.mem_cons, List.mem_append]
            exact Or.inr (Or.inr hr2)
          have hnodef : ∀ q, q ∈ nodesOfF f → s2.1.get? q = s.1.get? q := by
            intro q hq
            apply hnode
            simp only [nodesOfF, nodesOfT, List.mem_append, List.mem_cons]
            exact Or.inr hq
          exact ih f u d s s2 hszf hrest harcf hnodef

theorem forest_extract {nodes : List Node} {net : List Arc} :
    ∀ (n : Nat) (G : RForest), sizeF G ≤ n → ∀ p, p ∈ topArcsF G →
    ∃ (tw : RTree) (G2 : RForest),
      sizeF G = sizeF (RForest.cons p tw G2) ∧
      (nodesOfF G).Perm (nodesOfF (RForest.cons p tw G2)) ∧
      (arcsOfF G).Perm (arcsOfF (RForest.cons p tw G2)) ∧
      (topArcsF G).Perm (topArcsF (RForest.cons p tw G2)) ∧
      (∀ u e, e ∈ edgesF u G ↔ e ∈ edgesF u (RForest.cons p tw G2)) ∧
      (∀ u, repF nodes net u G ↔ repF nodes net u (RForest.cons p tw G2)) ∧
      (∀ maxTot u d s, doneF nodes net maxTot u d G s ↔
        doneF nodes net maxTot u d (RForest.cons p tw G2) s) := by
  intro n
  induction n with
  | zero =>
    intro G hsz p hp
    cases G with
    | nil => cases hp
    | cons r t f =>
      exfalso
      have := sizeT_pos t
      simp [sizeF] at hsz
      omega
  | succ n ih =>
    intro G hsz p hp
    cases G with
    | nil => cases hp
    | cons r t f =>
      have hszf : sizeF f ≤ n := by
        have := sizeT_pos t
        simp [sizeF] at hsz
        omega
      rcases List.mem_cons.mp hp with rfl | hp
      · exact ⟨t, f, rfl, List.Perm.refl _, List.Perm.refl _, List.Perm.refl _,
          fun u e => Iff.rfl, fun u => Iff.rfl, fun maxTot u d s => Iff.rfl⟩
      · obtain ⟨tw, f2, hsize, hnodes, harcs, htops, hedges, hreps, hdones⟩ := ih f hszf p hp
        refine ⟨tw, RForest.cons r t f2, ?_, ?_, ?_, ?_, ?_, ?_, ?_⟩
        · simp only [sizeF] at hsize ⊢
          omega
        · simp only [nodesOfF]
          have hf : (nodesOfF f).Perm (nodesOfT tw ++ nodesOfF f2) := by
            simpa [nodesOfF] using hnodes
          exact (hf.append_left (nodesOfT t)).trans (perm_append_swap _ _ _)
        · simp only [arcsOfF]
          have hf : (arcsOfF f).Perm (p :: (arcsOfT tw ++ arcsOfF f2)) := by
            simpa [arcsOfF] using harcs
          have x1 := hf.append_left (arcsOfT t)
          have x2 : (arcsOfT t ++ (p :: (arcsOfT tw ++ arcsOfF f2))).Perm
              (p :: (arcsOfT t ++ (arcsOfT tw ++ arcsOfF f2))) := List.perm_middle
          have xall := ((x1.trans x2).cons r).trans
            (List.Perm.swap p r (arcsOfT t ++ (arcsOfT tw ++ arcsOfF f2)))
          have y1 : (arcsOfT tw ++ (r :: (arcsOfT t ++ arcsOfF f2))).Perm
              (r :: (arcsOfT tw ++ (arcsOfT t ++ arcsOfF f2))) := List.perm_middle
          have y2 := perm_append_swap (arcsOfT tw) (arcsOfT t) (arcsOfF f2)
          have yall := (y1.cons p).trans ((y2.cons r).cons p)
          exact xall.trans yall.symm
        · simp only [topArcsF]
          have ht2 : (topArcsF f).Perm (p :: topArcsF f2) := by
            simpa [topArcsF] using htops
          exact (ht2.cons r).trans (List.Perm.swap p r (topArcsF f2))
        · intro u e
          have h1 := hedges u e
          simp only [edgesF, List.mem_cons, List.mem_append] at h1 ⊢
          tauto
        · intro u
          constructor
          · rintro ⟨her, htt, hff⟩
            obtain ⟨hep, htw2, hf2⟩ := (hreps u).mp hff
            exact ⟨hep, htw2, her, htt, hf2⟩
          · rintro ⟨hep, htw2, her, htt, hf2⟩
            exact ⟨her, htt, (hreps u).mpr ⟨hep, htw2, hf2⟩⟩
        · intro maxTot u d s
          constructor
          · rintro ⟨hedger, hrest⟩
            obtain ⟨hedgep, hrest2⟩ := (hdones maxTot u d s).mp hrest
            exact ⟨hedgep, hedger, hrest2⟩
          · rintro ⟨hedgep, hedger, hrest2⟩
            exact ⟨hedger, (hdones maxTot u d s).mpr ⟨hedgep, hrest2⟩⟩

theorem edge_mem_parts :
    ∀ (n : Nat) (G : RForest) (u : Nat), sizeF G ≤ n →
    ∀ v r q, (v, r, q) ∈ edgesF u G → q ∈ nodesOfF G ∧ r ∈ arcsOfF G := by
  intro n
  induction n with
  | zero =>
    intro G u hsz v r q h
    cases G with
    | nil => cases h
    | cons r2 t f =>
      exfalso
      have := sizeT_pos t
      simp [sizeF] at hsz
      omega
  | succ n ih =>
    intro G u hsz v r q h
    cases G with
    | nil => cases h
    | cons r2 t f =>
      cases t with
      | mk w Fw =>
        have hszf : sizeF f ≤ n := by
          have := sizeT_pos (RTree.mk w Fw)
          simp [sizeF] at hsz
          omega
        have hszw : sizeF Fw ≤ n := by
          simp [sizeF, sizeT] at hsz
          omega
        simp only [edgesF, edgesT, List.mem_cons, List.mem_append, Prod.mk.injEq] at h
        simp only [nodesOfF, nodesOfT, arcsOfF, arcsOfT, List.mem_append, List.mem_cons,
          RTree.pos]
        rcases h with ⟨hv, hr, hq⟩ | h | h
        · exact ⟨Or.inl (Or.inl hq), Or.inl hr⟩
        · obtain ⟨hq, hr⟩ := ih Fw w hszw v r q h
          exact ⟨Or.inl (Or.inr hq), Or.inr (Or.inl hr)⟩
        · obtain ⟨hq, hr⟩ := ih f u hszf v r q h
          exact ⟨Or.inr hq, Or.inr (Or.inr hr)⟩

theorem nonroot_edge :
    ∀ (n : Nat) (G : RForest) (u : Nat), sizeF G ≤ n →
    ∀ q, q ∈ nodesOfF G → ∃ v r, (v, r, q) ∈ edgesF u G := by
  intro n
  induction n with
  | zero =>
    intro G u hsz q h
    cases G with
    | nil => cases h
    | cons r2 t f =>
      exfalso
      have := sizeT_pos t
      simp [sizeF] at hsz
      omega
  | succ n ih =>
    intro G u hsz q h
    cases G with
    | nil => cases h
    | cons r2 t f =>
      cases t with
      | mk w Fw =>
        have hszf : sizeF f ≤ n := by
          have := sizeT_pos (RTree.mk w Fw)
          simp [sizeF] at hsz
          omega
        have hszw : sizeF Fw ≤ n := by
          simp [sizeF, sizeT] at hsz
          omega
        simp only [nodesOfF, nodesOfT, List.mem_append, List.mem_cons] at h
        rcases h with (rfl | h) | h
        · exact ⟨u, r2, by simp [edgesF, RTree.pos]⟩
        · obtain ⟨v, r, hm⟩ := ih Fw w hszw q h
          refine ⟨v, r, ?_⟩
          simp only [edgesF, edgesT, List.mem_cons, List.mem_append]
          exact Or.inr (Or.inl hm)
        · obtain ⟨v, r, hm⟩ := ih f u hszf q h
          refine ⟨v, r, ?_⟩
          simp only [edgesF, List.mem_cons, List.mem_append]
          exact Or.inr (Or.inr hm)

theorem arc_edge :
    ∀ (n : Nat) (G : RForest) (u : Nat), sizeF G ≤ n →
    ∀ r, r ∈ arcsOfF G → ∃ v q, (v, r, q) ∈ edgesF u G := by
  intro n
  induction n with
  | zero =>
    intro G u hsz r h
    cases G with
    | nil => cases h
    | cons r2 t f =>
      exfalso
      have := sizeT_pos t
      simp [sizeF] at hsz
      omega
  | succ n ih =>
    intro G u hsz r h
    cases G with
    | nil => cases h
    | cons r2 t f =>
      cases t with
      | mk w Fw =>
        have hszf : sizeF f ≤ n := by
          have := sizeT_pos (RTree.mk w Fw)
          simp [sizeF] at hsz
          omega
        have hszw : sizeF Fw ≤ n := by
          simp [sizeF, sizeT] at hsz
          omega
        simp only [arcsOfF, arcsOfT, List.mem_cons, List.mem_append] at h
        rcases h with rfl | h | h
        · exact ⟨u, w, by simp [edgesF, RTree.pos]⟩
        · obtain ⟨v, q, hm⟩ := ih Fw w hszw r h
          refine ⟨v, q, ?_⟩
          simp only [edgesF, edgesT, List.mem_cons, List.mem_append]
          exact Or.inr (Or.inl hm)
        · obtain ⟨v, q, hm⟩ := ih f u hszf r h
          refine ⟨v, q, ?_⟩
          simp only [edgesF, List.mem_cons, List.mem_append]
          exact Or.inr (Or.inr hm)

theorem child_unique :
    ∀ (n : Nat) (G : RForest) (u : Nat), sizeF G ≤ n → (u :: nodesOfF G).Nodup →
    ∀ v1 r1 v2 r2 q, (v1, r1, q) ∈ edgesF u G → (v2, r2, q) ∈ edgesF u G →
    v1 = v2 ∧ r1 = r2 := by
  intro n
  induction n with
  | zero =>
    intro G u hsz _ v1 r1 v2 r2 q h1 _
    cases G with
    | nil => cases h1
    | cons r0 t f =>
      exfalso
      have := sizeT_pos t
      simp [sizeF] at hsz
      omega
  | succ n ih =>
    intro G u hsz hnd v1 r1 v2 r2 q h1 h2
    cases G with
    | nil => cases h1
    | cons r0 t f =>
      cases t with
      | mk w Fw =>
        have hszf : sizeF f ≤ n := by
          have := sizeT_pos (RTree.mk w Fw)
          simp [sizeF] at hsz
          omega
        have hszw : sizeF Fw ≤ n := by
          simp [sizeF, sizeT] at hsz
          omega
        have hnd1 : (u :: ((w :: nodesOfF Fw) ++ nodesOfF f)).Nodup := hnd
        have h0 := List.nodup_cons.mp hnd1
        have h01 := List.nodup_append.mp h0.2
        have hwA : w ∉ nodesOfF Fw := (List.nodup_cons.mp h01.1).1
        have hndA : (w :: nodesOfF Fw).Nodup := h01.1
        have hndB : (u :: nodesOfF f).Nodup := by
          rw [List.nodup_cons]
          refine ⟨fun hm => h0.1 (List.mem_append.mpr (Or.inr hm)), h01.2.1⟩
        have hdisj : ∀ x, x ∈ (w :: nodesOfF Fw) → x ∉ nodesOfF f := fun x hx => h01.2.2 hx
        simp only [edgesF, edgesT, List.mem_cons, List.mem_append, Prod.mk.injEq,
          RTree.pos] at h1 h2
        rcases h1 with ⟨hv1, hr1, hq1⟩ | h1 | h1
        · rcases h2 with ⟨hv2, hr2, hq2⟩ | h2 | h2
          · exact ⟨hv1.trans hv2.symm, hr1.trans hr2.symm⟩
          · exfalso
            have := (edge_mem_parts n Fw w hszw v2 r2 q h2).1
            rw [hq1] at this
            exact hwA this
          · exfalso
            have := (edge_mem_parts n f u hszf v2 r2 q h2).1
            rw [hq1] at this
            exact hdisj w (List.mem_cons_self _ _) this
        · rcases h2 with ⟨hv2, hr2, hq2⟩ | h2 | h2
          · exfalso
            have := (edge_mem_parts n Fw w hszw v1 r1 q h1).1
            rw [hq2] at this
            exact hwA this
          · exact ih Fw w hszw hndA v1 r1 v2 r2 q h1 h2
          · exfalso
            have hm1 := (edge_mem_parts n Fw w hszw v1 r1 q h1).1
            have hm2 := (edge_mem_parts n f u hszf v2 r2 q h2).1
            exact hdisj q (List.mem_cons.mpr (Or.inr hm1)) hm2
        · rcases h2 with ⟨hv2, hr2, hq2⟩ | h2 | h2
          · exfalso
            have := (edge_mem_parts n f u hszf v1 r1 q h1).1
            rw [hq2] at this
            exact hdisj w (List.mem_cons_self _ _) this
          · exfalso
            have hm1 := (edge_mem_parts n f u hszf v1 r1 q h1).1
            have hm2 := (edge_mem_parts n Fw w hszw v2 r2 q h2).1
            exact hdisj q (List.mem_cons.mpr (Or.inr hm2)) hm1
          · exact ih f u hszf hndB v1 r1 v2 r2 q h1 h2

theorem done_rel {nodes : List Node} {net : List Arc} {maxTot : ℚ} :
    ∀ (n : Nat) (G : RForest) (u : Nat) (d : ℚ) (s : List Node × List Arc) (ndU : Node),
    sizeF G ≤ n → doneF nodes net maxTot u d G s →
    s.1.get? u = some ndU → ndU.tot = d →
    ∀ v r q, (v, r, q) ∈ edgesF u G →
      ∃ a ndP ndW, s.2.get? r = some a ∧ a.directed = 1 ∧ a.ns = (v : Int) ∧
        a.ne = (q : Int) ∧ s.1.get? v = some ndP ∧ s.1.get? q = some ndW ∧
        ndW.tot = ndP.tot + ndW.marg ∧ ndW.marg = a.len := by
  intro n
  induction n with
  | zero =>
    intro G u d s ndU hsz _ _ _ v r q h
    cases G with
    | nil => cases h
    | cons r0 t f =>
      exfalso
      have := sizeT_pos t
      simp [sizeF] at hsz
      omega
  | succ n ih =>
    intro G u d s ndU hsz hdone hgu htotu v r q h
    cases G with
    | nil => cases h
    | cons r0 t f =>
      obtain ⟨⟨a0, a, ha0, ha, hdir, hns, hne, hlen, hen, ⟨ndW, hndW, hmarg, htot⟩, hsub⟩,
        hrest⟩ := hdone
      cases t with
      | mk w Fw =>
        have hszf : sizeF f ≤ n := by
          have := sizeT_pos (RTree.mk w Fw)
          simp [sizeF] at hsz
          omega
        have hszw : sizeF Fw ≤ n := by
          simp [sizeF, sizeT] at hsz
          omega
        simp only [RTree.pos] at hne hndW
        simp only [edgesF, edgesT, List.mem_cons, List.mem_append, Prod.mk.injEq,
          RTree.pos] at h
        rcases h with ⟨hv, hr, hq⟩ | h | h
        · subst hv hr hq
          refine ⟨a, ndU, ndW, ha, hdir, hns, hne, hgu, hndW, ?_, by rw [hmarg, hlen]⟩
          rw [htot, htotu, hmarg]
        · exact ih Fw w (d + a0.len) s ndW hszw hsub hndW htot v r q h
        · exact ih f u d s ndU hszf hrest hgu htotu v r q h

theorem pyGet_natCast {l : List α} {p : Nat} (h : p < l.length) :
    pyGet l (p : Int) = l.get? p := by
  unfold pyGet
  rw [pyIdx_natCast h]
  rfl

theorem pySet_pySet (l : List α) (i : Int) (x y : α) :
    pySet (pySet l i x) i y = pySet l i y := by
  cases h : pyIdx l.length i with
  | none => rw [pyIdx_none_pySet x h]
  | some n =>
    have h1 : pySet l i x = l.set n x := by unfold pySet; rw [h]
    have h2 : pySet l i y = l.set n y := by unfold pySet; rw [h]
    have h3 : pyIdx (l.set n x).length i = some n := by rw [List.length_set]; exact h
    have h4 : pySet (l.set n x) i y = (l.set n x).set n y := by unfold pySet; rw [h3]
    rw [h1, h4, h2, List.set_set]

theorem treeGood_iffR {nodes : List Node} {net : List Arc} {R R2 : Nat → Prop}
    {m : List Node × List Arc} (h : ∀ r, R r ↔ R2 r)
    (hg : treeGood nodes net R m) : treeGood nodes net R2 m := by
  obtain ⟨g1, g2, g3, g4, g5⟩ := hg
  refine ⟨g1, g2, g3, fun r hr => g4 r ((h r).mpr hr), fun r a ha => ?_⟩
  obtain ⟨h1, h2⟩ := g5 r a ha
  exact ⟨fun hr => h1 ((h r).mpr hr), fun hr => h2 (fun hr2 => hr ((h r).mp hr2))⟩

theorem nodes_split_facts {u w : Nat} {Fw G2 G : RForest}
    (hnd : (u :: nodesOfF G).Nodup)
    (hperm : (nodesOfF G).Perm (nodesOfT (RTree.mk w Fw) ++ nodesOfF G2)) :
    ((w :: nodesOfF Fw).Nodup ∧ (u :: nodesOfF G2).Nodup) ∧
    (u ≠ w ∧ u ∉ nodesOfF Fw ∧ u ∉ nodesOfF G2) ∧
    (w ∉ nodesOfF G2 ∧ ∀ x, x ∈ nodesOfF Fw → x ∉ nodesOfF G2) ∧
    (∀ q, q ∈ nodesOfF G ↔ (q = w ∨ q ∈ nodesOfF Fw ∨ q ∈ nodesOfF G2)) := by
  have hnd2 : (u :: ((w :: nodesOfF Fw) ++ nodesOfF G2)).Nodup :=
    (List.Perm.nodup_iff (List.Perm.cons u hperm)).mp hnd
  have h0 := List.nodup_cons.mp hnd2
  have h01 := List.nodup_append.mp h0.2
  have hu : u ∉ (w :: nodesOfF Fw) ++ nodesOfF G2 := h0.1
  simp only [List.mem_append, List.mem_cons] at hu
  push_neg at hu
  have hwcons := List.nodup_cons.mp h01.1
  refine ⟨⟨h01.1, ?_⟩, ⟨hu.1.1, hu.1.2, hu.2⟩, ⟨?_, ?_⟩, ?_⟩
  · rw [List.nodup_cons]
    exact ⟨hu.2, h01.2.1⟩
  · exact h01.2.2 (List.mem_cons_self _ _)
  · exact fun x hx => h01.2.2 (List.mem_cons.mpr (Or.inr hx))
  · intro q
    rw [hperm.mem_iff]
    simp [nodesOfT, nodesOfF]

theorem arcs_split_facts {p : Nat} {tw : RTree} {G2 G : RForest}
    (hnd : (arcsOfF G).Nodup)
    (hperm : (arcsOfF G).Perm (arcsOfF (RForest.cons p tw G2))) :
    ((arcsOfT tw).Nodup ∧ (arcsOfF G2).Nodup) ∧
    (p ∉ arcsOfT tw ∧ p ∉ arcsOfF G2 ∧ ∀ x, x ∈ arcsOfT tw → x ∉ arcsOfF G2) ∧
    (∀ r, r ∈ arcsOfF G ↔ (r = p ∨ r ∈ arcsOfT tw ∨ r ∈ arcsOfF G2)) := by
  have hnd2 : (p :: (arcsOfT tw ++ arcsOfF G2)).Nodup :=
    (List.Perm.nodup_iff hperm).mp hnd
  have h0 := List.nodup_cons.mp hnd2
  have h01 := List.nodup_append.mp h0.2
  have hp : p ∉ arcsOfT tw ++ arcsOfF G2 := h0.1
  simp only [List.mem_append] at hp
  push_neg at hp
  refine ⟨⟨h01.1, h01.2.1⟩, ⟨hp.1, hp.2, fun x hx => h01.2.2 hx⟩, ?_⟩
  · intro r
    rw [hperm.mem_iff]
    simp [arcsOfF]

theorem nontop_no_touch_u {nodes : List Node} {net : List Arc} (hinj : coordInj nodes) :
    ∀ (n : Nat) (G : RForest) (u : Nat), sizeF G ≤ n → repF nodes net u G →
    (u :: nodesOfF G).Nodup →
    ∀ p, p ∈ arcsOfF G → p ∉ topArcsF G → ¬Touches nodes net p u := by
  intro n
  induction n with
  | zero =>
    intro G u hsz _ _ p hp _
    cases G with
    | nil => cases hp
    | cons r0 t f =>
      exfalso
      have := sizeT_pos t
      simp [sizeF] at hsz
      omega
  | succ n ih =>
    intro G u hsz hrep hnd p hp hptop ht
    cases G with
    | nil => cases hp
    | cons r0 t f =>
      have hszf : sizeF f ≤ n := by
        have := sizeT_pos t
        simp [sizeF] at hsz
        omega
      obtain ⟨⟨a0, ha0, hund⟩, hrt, hrf⟩ := hrep
      simp only [topArcsF, List.mem_cons, not_or] at hptop
      simp only [arcsOfF, List.mem_cons, List.mem_append] at hp
      rcases hp with rfl | hp | hp
      · exact hptop.1 rfl
      · have hmem := touch_tree hinj hrt hp ht
        have hnd1 : (u :: (nodesOfT t ++ nodesOfF f)).Nodup := hnd
        have h0 := List.nodup_cons.mp hnd1
        exact h0.1 (List.mem_append.mpr (Or.inl hmem))
      · have hnd1 : (u :: (nodesOfT t ++ nodesOfF f)).Nodup := hnd
        have h0 := List.nodup_cons.mp hnd1
        have h01 := List.nodup_append.mp h0.2
        have hndf : (u :: nodesOfF f).Nodup := by
          rw [List.nodup_cons]
          exact ⟨fun hm => h0.1 (List.mem_append.mpr (Or.inr hm)), h01.2.1⟩
        exact ih f u hszf hrf hndf p hp hptop.2 ht

theorem directClaim_eq {rec : List Node → List Arc → Int → Option (List Node × List Arc)}
    {ndU : Node} {m : List Node × List Arc} {p : Nat} {a1 : Arc} {w : Nat} {ndW1 : Node}
    {maxTot : ℚ} (hfind : findNodeAt m.1 a1.xe a1.ye = some (w, ndW1)) :
    directClaim maxTot rec ndU m p a1 =
      rec (pySet m.1 (w : Int) { ndW1 with marg := a1.len, tot := ndU.tot + a1.len })
        (pySet m.2 (p : Int)
          (if ndU.tot + a1.len > maxTot then
            { a1 with ns := ndU.idx, directed := 1, ne := ndW1.idx, enabled := 0 }
           else { a1 with ns := ndU.idx, directed := 1, ne := ndW1.idx }))
        ndW1.idx := by
  simp only [directClaim]
  rw [hfind]
  dsimp only
  by_cases hc : ndU.tot + a1.len > maxTot
  · rw [if_pos (by exact hc), if_pos hc, pySet_pySet, pySet_pySet]
  · rw [if_neg (by exact hc), if_neg hc, pySet_pySet]

theorem get?_pySet_nat {l : List α} {w : Nat} (h : w < l.length) (x : α) (q : Nat) :
    (pySet l (w : Int) x).get? q = if w = q then some x else l.get? q := by
  rw [get?_pySet, pyIdx_natCast h]
  rcases eq_or_ne w q with rfl | hne
  · rw [if_pos rfl, if_pos rfl]
  · rw [if_neg (by simpa using hne), if_neg hne]

theorem directStep_eval {maxTot : ℚ}
    {rec : List Node → List Arc → Int → Option (List Node × List Arc)}
    {u : Nat} {m : List Node × List Arc} {p : Nat} {ndU : Node} {a : Arc}
    (hu : m.1.get? u = some ndU) (hp : m.2.get? p = some a) :
    directStep maxTot rec (u : Int) m p =
      if a.xs = ndU.x ∧ a.ys = ndU.y then
        (if a.directed = 1 then pure m else directClaim maxTot rec ndU m p a)
      else if a.xe = ndU.x ∧ a.ye = ndU.y then
        (if a.directed = 1 then pure m
         else directClaim maxTot rec ndU m p
           { a with xs := a.xe, ys := a.ye, xe := a.xs, ye := a.ys })
      else pure m := by
  unfold directStep
  rw [pyGet_natCast (get?_some_lt hu), hu, pyGet_natCast (get?_some_lt hp), hp]
  simp only [Option.bind_eq_bind, Option.some_bind]

/-- Main induction for `direct_network` on a represented spanning
forest: scanning the positions `L` from node `u` claims exactly the
forest hanging below `u`, directs it parent-to-child, fills in
marginal and total distances, and touches nothing else. -/
theorem directForest {nodes : List Node} {net : List Arc} {maxTot : ℚ}
    (hinj : coordInj nodes) (hidx : idxOk nodes) :
    ∀ (n : Nat) (G : RForest) (L : List Nat) (fuel : Nat) (u : Nat) (d : ℚ)
      (m : List Node × List Arc) (R : Nat → Prop),
    sizeF G * (net.length + 1) + L.length ≤ n →
    (∀ p, p ∈ L → p < net.length) →
    sizeF G ≤ fuel →
    treeGood nodes net R m →
    repF nodes net u G →
    (u :: nodesOfF G).Nodup →
    (arcsOfF G).Nodup →
    (∀ r, r ∈ arcsOfF G → R r) →
    (∀ r, r ∈ topArcsF G → r ∈ L) →
    (∀ r q, R r → (q = u ∨ q ∈ nodesOfF G) → Touches nodes net r q → r ∈ arcsOfF G) →
    ∀ ndU, m.1.get? u = some ndU → ndU.tot = d →
    ∃ m2, L.foldlM (directStep maxTot (direct_network maxTot fuel) (u : Int)) m = some m2 ∧
      treeGood nodes net (fun r => R r ∧ r ∉ arcsOfF G) m2 ∧
      (∀ q : Nat, q ∉ nodesOfF G → m2.1.get? q = m.1.get? q) ∧
      (∀ r : Nat, r ∉ arcsOfF G → m2.2.get? r = m.2.get? r) ∧
      doneF nodes net maxTot u d G m2 := by
  intro n
  induction n with
  | zero =>
    intro G L fuel u d m R hmeas hL hfuel hgood hrep hndN hndA hsubR hsubL hclo ndU hgu htot
    have hG0 : G = RForest.nil := by
      cases G with
      | nil => rfl
      | cons r t f =>
        exfalso
        have h1 : 1 ≤ sizeF (RForest.cons r t f) := by
          have := sizeT_pos t
          simp [sizeF]
          omega
        have h3 := Nat.mul_le_mul_right (net.length + 1) h1
        rw [one_mul] at h3
        omega
    subst hG0
    have hL0 : L = [] := List.eq_nil_of_length_eq_zero (by omega)
    subst hL0
    exact ⟨m, rfl, treeGood_iffR
      (fun r => ⟨fun h => ⟨h, by simp [arcsOfF]⟩, fun h => h.1⟩) hgood,
      fun q _ => rfl, fun r _ => rfl, trivial⟩
  | succ n ih =>
    intro G L fuel u d m R hmeas hL hfuel hgood hrep hndN hndA hsubR hsubL hclo ndU hgu htot
    cases L with
    | nil =>
      have hG0 : G = RForest.nil := by
        cases G with
        | nil => rfl
        | cons r t f => exact absurd (hsubL r (by simp [topArcsF])) (List.not_mem_nil r)
      subst hG0
      exact ⟨m, rfl, treeGood_iffR
        (fun r => ⟨fun h => ⟨h, by simp [arcsOfF]⟩, fun h => h.1⟩) hgood,
        fun q _ => rfl, fun r _ => rfl, trivial⟩
    | cons p L2 =>
      simp only [List.length_cons] at hmeas
      have hpM : p < net.length := hL p (List.mem_cons_self _ _)
      have hplen : p < m.2.length := by rw [hgood.2.1]; exact hpM
      obtain ⟨a, ha⟩ : ∃ a, m.2.get? p = some a := ⟨_, List.get?_eq_get hplen⟩
      simp only [List.foldlM_cons]
      have hskip : directStep maxTot (direct_network maxTot fuel) (u : Int) m p = some m →
          (∀ r, r ∈ topArcsF G → r ∈ L2) →
          ∃ m2, (directStep maxTot (direct_network maxTot fuel) (u : Int) m p >>=
              fun x => L2.foldlM (directStep maxTot (direct_network maxTot fuel) (u : Int)) x) =
              some m2 ∧
            treeGood nodes net (fun r => R r ∧ r ∉ arcsOfF G) m2 ∧
            (∀ q : Nat, q ∉ nodesOfF G → m2.1.get? q = m.1.get? q) ∧
            (∀ r : Nat, r ∉ arcsOfF G → m2.2.get? r = m.2.get? r) ∧
            doneF nodes net maxTot u d G m2 := by
        intro hstep hsubL2
        obtain ⟨m2, hf2, hgood2, hfn2, hfa2, hdone2⟩ := ih G L2 fuel u d m R (by omega)
          (fun q hq => hL q (List.mem_cons.mpr (Or.inr hq))) hfuel hgood hrep hndN hndA
          hsubR hsubL2 hclo ndU hgu htot
        refine ⟨m2, ?_, hgood2, hfn2, hfa2, hdone2⟩
        rw [hstep]
        simp only [Option.bind_eq_bind, Option.some_bind]
        exact hf2
      by_cases hpR : R p
      · have haorig : net.get? p = some a := by
          rw [← hgood.2.2.2.1 p hpR]
          exact ha
        have hdir0 : a.directed = 0 := (hgood.2.2.2.2 p a ha).1 hpR
        have hdirne : ¬(a.directed = 1) := by rw [hdir0]; decide
        obtain ⟨ndU0, hgU0, hstripU⟩ := distAgree_some hgood.2.2.1 hgu
        have hufields := stripDist_fields hstripU
        by_cases htouch : Touches nodes net p u
        · -- claim case
          have hpG : p ∈ arcsOfF G := hclo p u hpR (Or.inl rfl) htouch
          have hptop : p ∈ topArcsF G := by
            by_contra hnot
            exact nontop_no_touch_u hinj (sizeF G) G u le_rfl hrep hndN p hpG hnot htouch
          obtain ⟨tw, G2, hsize, hpermN, hpermA, hpermT, hedges, hreps, hdones⟩ :=
            forest_extract (sizeF G) G le_rfl p hptop
          have hrepC := (hreps u).mp hrep
          obtain ⟨⟨a0, ha0, hund⟩, hrepT, hrepG2⟩ := hrepC
          have haa0 : a = a0 := Option.some_inj.mp (haorig.symm.trans ha0)
          rw [← haa0] at ha0 hund
          cases tw with
          | mk w Fw =>
          obtain ⟨⟨hndTw, hndG2u⟩, ⟨huw, huFw, huG2⟩, ⟨hwG2, hFwG2⟩, hmemN⟩ :=
            nodes_split_facts hndN hpermN
          obtain ⟨⟨hndaTw, hndaG2⟩, ⟨hpTw, hpG2, hTwG2⟩, hmemA⟩ := arcs_split_facts hndA hpermA
          have hrepFw : repF nodes net w Fw := hrepT.2
          obtain ⟨hdirRaw, hen0, ndP, ndQ, hPu, hQw, hor⟩ := hund
          have hQw2 : nodes.get? w = some ndQ := hQw
          have hPU : ndP = ndU0 := Option.some_inj.mp (hPu.symm.trans hgU0)
          rw [hPU] at hor
          obtain ⟨ndW1, hgW1, hstripW⟩ := distAgree_some_orig hgood.2.2.1 hQw2
          have hwfields := stripDist_fields hstripW
          have hidxW : ndW1.idx = (w : Int) := by rw [hwfields.1]; exact hidx w ndQ hQw2
          have hidxU : ndU.idx = (u : Int) := by rw [hufields.1]; exact hidx u ndU0 hgU0
          have hwlen : w < m.1.length := get?_some_lt hgW1
          have hndWFw : w ∉ nodesOfF Fw := (List.nodup_cons.mp hndTw).1
          have huniq : ∀ q2 nd2, m.1.get? q2 = some nd2 → nd2.x = ndQ.x → nd2.y = ndQ.y →
              q2 = w := by
            intro q2 nd2 hq2 hx hy
            obtain ⟨nd2o, hq2o, hstrip2⟩ := distAgree_some hgood.2.2.1 hq2
            have h2f := stripDist_fields hstrip2
            exact hinj q2 w nd2o ndQ hq2o hQw2 (by rw [← h2f.2.1, hx]) (by rw [← h2f.2.2.1, hy])
          have hstepeq : ∃ a1 : Arc,
              directStep maxTot (direct_network maxTot fuel) (u : Int) m p =
                directClaim maxTot (direct_network maxTot fuel) ndU m p a1 ∧
              a1.xe = ndQ.x ∧ a1.ye = ndQ.y ∧ a1.len = a.len ∧ a1.enabled = 1 := by
            rcases hor with ⟨h1, h2, h3, h4⟩ | ⟨h1, h2, h3, h4⟩
            · refine ⟨a, ?_, h3, h4, rfl, hen0⟩
              rw [directStep_eval hgu ha,
                if_pos ⟨by rw [h1]; exact hufields.2.1.symm,
                  by rw [h2]; exact hufields.2.2.1.symm⟩,
                if_neg hdirne]
            · refine ⟨{ a with xs := a.xe, ys := a.ye, xe := a.xs, ye := a.ys },
                ?_, h1, h2, rfl, hen0⟩
              rw [directStep_eval hgu ha]
              have hc1 : ¬(a.xs = ndU.x ∧ a.ys = ndU.y) := by
                rintro ⟨hx, hy⟩
                apply huw
                exact hinj u w ndU0 ndQ hgU0 hQw2 (by rw [← hufields.2.1, ← hx, h1])
                  (by rw [← hufields.2.2.1, ← hy, h2])
              rw [if_neg hc1,
                if_pos ⟨by rw [h3]; exact hufields.2.1.symm,
                  by rw [h4]; exact hufields.2.2.1.symm⟩,
                if_neg hdirne]
          obtain ⟨a1, hstepClaim, ha1xe, ha1ye, ha1len, ha1en⟩ := hstepeq
          have hfind : findNodeAt m.1 a1.xe a1.ye = some (w, ndW1) := by
            rw [ha1xe, ha1ye]
            exact findNodeAt_spec hgW1 hwfields.2.1 hwfields.2.2.1 huniq
          have hclaimEq := @directClaim_eq (direct_network maxTot fuel) ndU m p a1 w ndW1
            maxTot hfind
          set afin := (if ndU.tot + a1.len > maxTot then
              { a1 with ns := ndU.idx, directed := 1, ne := ndW1.idx, enabled := 0 }
            else { a1 with ns := ndU.idx, directed := 1, ne := ndW1.idx }) with hafin
          set ndB1 := ({ ndW1 with marg := a1.len, tot := ndU.tot + a1.len } : Node) with hndB1
          obtain ⟨fc, rfl⟩ : ∃ fc, fuel = fc + 1 := by
            have h1 : 1 ≤ sizeF G := by
              rw [hsize]
              have := sizeT_pos (RTree.mk w Fw)
              simp [sizeF]
              omega
            exact ⟨fuel - 1, by omega⟩
          have hsz1 : sizeF G = 1 + sizeF Fw + sizeF G2 := by
            rw [hsize]
            simp only [sizeF, sizeT]
          have hexp : sizeF G * (net.length + 1) =
              (net.length + 1) + sizeF Fw * (net.length + 1) +
                sizeF G2 * (net.length + 1) := by
            rw [hsz1]
            ring
          have hgood1 : treeGood nodes net (fun r => R r ∧ r ≠ p)
              (pySet m.1 ((w : Nat) : Int) ndB1, pySet m.2 ((p : Nat) : Int) afin) := by
            obtain ⟨g1, g2, gda, gorig, gdir⟩ := hgood
            refine ⟨?_, ?_, ?_, ?_, ?_⟩
            · show (pySet m.1 ((w : Nat) : Int) ndB1).length = nodes.length
              rw [length_pySet]
              exact g1
            · show (pySet m.2 ((p : Nat) : Int) afin).length = net.length
              rw [length_pySet]
              exact g2
            · exact distAgree_set gda hgW1 (by rw [hndB1]; rfl)
            · intro r hr
              show (pySet m.2 ((p : Nat) : Int) afin).get? r = net.get? r
              rw [get?_pySet_nat hplen afin r, if_neg (fun he => hr.2 he.symm)]
              exact gorig r hr.1
            · intro r a2 ha2
              have ha2b : (pySet m.2 ((p : Nat) : Int) afin).get? r = some a2 := ha2
              rw [get?_pySet_nat hplen afin r] at ha2b
              by_cases hpr : p = r
              · rw [if_pos hpr] at ha2b
                obtain rfl := Option.some_inj.mp ha2b
                constructor
                · rintro ⟨_, hne⟩
                  exact absurd hpr.symm hne
                · intro _
                  rw [hafin]
                  split_ifs <;> rfl
              · rw [if_neg hpr] at ha2b
                have h5 := gdir r a2 ha2b
                constructor
                · intro hr2
                  exact h5.1 hr2.1
                · intro hr2
                  apply h5.2
                  intro hR
                  exact hr2 ⟨hR, fun he => hpr he.symm⟩
          have hentry1 : (pySet m.1 ((w : Nat) : Int) ndB1,
              pySet m.2 ((p : Nat) : Int) afin).1.get? w = some ndB1 := by
            show (pySet m.1 ((w : Nat) : Int) ndB1).get? w = some ndB1
            rw [get?_pySet_nat hwlen ndB1 w, if_pos rfl]
          obtain ⟨m3, hfold3, hgood3, hfn3, hfa3, hdone3⟩ :=
            ih Fw (List.range net.length) fc w (d + a.len)
              (pySet m.1 ((w : Nat) : Int) ndB1, pySet m.2 ((p : Nat) : Int) afin)
              (fun r => R r ∧ r ≠ p)
              (by rw [List.length_range]; omega)
              (fun q hq => List.mem_range.mp hq)
              (by omega)
              hgood1
              hrepFw
              hndTw
              hndaTw
              (fun r hr => ⟨hsubR r ((hmemA r).mpr (Or.inr (Or.inl hr))),
                fun he => hpTw (he ▸ hr)⟩)
              (fun r hr => List.mem_range.mpr (by
                obtain ⟨a2, ha2⟩ := (rep_mem_bounds (sizeF Fw) Fw w le_rfl hrepFw).1 r
                  (topArcs_sub_arcs Fw r hr)
                exact get?_some_lt ha2))
              (fun r q hr hq ht => by
                have hqG : q ∈ nodesOfF G := (hmemN q).mpr (by
                  rcases hq with heq | hq2
                  · exact Or.inl heq
                  · exact Or.inr (Or.inl hq2))
                have hrG := hclo r q hr.1 (Or.inr hqG) ht
                rcases (hmemA r).mp hrG with heq | hr2 | hr2
                · exact absurd heq hr.2
                · exact hr2
                · exfalso
                  rcases touch_forest hinj (sizeF G2) G2 u le_rfl hrepG2 r q hr2 ht
                    with hequ | hq2
                  · rcases hq with heqw | hq3
                    · exact huw (hequ.symm.trans heqw)
                    · exact huFw (hequ ▸ hq3)
                  · rcases hq with heqw | hq3
                    · exact hwG2 (heqw ▸ hq2)
                    · exact hFwG2 q hq3 hq2)
              ndB1 hentry1 (by rw [hndB1]; show ndU.tot + a1.len = d + a.len; rw [htot, ha1len])
          have hrun : direct_network maxTot (fc + 1) (pySet m.1 ((w : Nat) : Int) ndB1)
              (pySet m.2 ((p : Nat) : Int) afin) ndW1.idx = some m3 := by
            rw [hidxW]
            show (List.range (pySet m.2 ((p : Nat) : Int) afin).length).foldlM
              (directStep maxTot (direct_network maxTot fc) ((w : Nat) : Int))
              (pySet m.1 ((w : Nat) : Int) ndB1, pySet m.2 ((p : Nat) : Int) afin) = some m3
            rw [show (pySet m.2 ((p : Nat) : Int) afin).length = net.length from
              by rw [length_pySet]; exact hgood.2.1]
            exact hfold3
          have hentry3 : m3.1.get? u = some ndU := by
            rw [hfn3 u huFw]
            show (pySet m.1 ((w : Nat) : Int) ndB1).get? u = some ndU
            rw [get?_pySet_nat hwlen ndB1 u, if_neg (fun he => huw he.symm)]
            exact hgu
          obtain ⟨m4, hfold4, hgood4, hfn4, hfa4, hdone4⟩ :=
            ih G2 L2 (fc + 1) u d m3 (fun r => (R r ∧ r ≠ p) ∧ r ∉ arcsOfF Fw)
              (by omega)
              (fun q hq => hL q (List.mem_cons.mpr (Or.inr hq)))
              (by omega)
              hgood3
              hrepG2
              hndG2u
              hndaG2
              (fun r hr => ⟨⟨hsubR r ((hmemA r).mpr (Or.inr (Or.inr hr))),
                fun he => hpG2 (he ▸ hr)⟩, fun hmem => hTwG2 r hmem hr⟩)
              (fun r hr => by
                have hrtop : r ∈ topArcsF G :=
                  hpermT.mem_iff.mpr (List.mem_cons.mpr (Or.inr hr))
                rcases List.mem_cons.mp (hsubL r hrtop) with heq | h2
                · exact absurd (heq ▸ topArcs_sub_arcs G2 r hr) hpG2
                · exact h2)
              (fun r q hr hq ht => by
                have hqG : q = u ∨ q ∈ nodesOfF G := by
                  rcases hq with heq | hq2
                  · exact Or.inl heq
                  · exact Or.inr ((hmemN q).mpr (Or.inr (Or.inr hq2)))
                have hrG := hclo r q hr.1.1 hqG ht
                rcases (hmemA r).mp hrG with heq | hr2 | hr2
                · exact absurd heq hr.1.2
                · exfalso
                  have hqT := touch_tree hinj hrepT hr2 ht
                  rcases List.mem_cons.mp hqT with heqw | hq3
                  · rcases hq with hequ | hq4
                    · exact huw (hequ.symm.trans heqw)
                    · exact hwG2 (heqw ▸ hq4)
                  · rcases hq with hequ | hq4
                    · exact huFw (hequ ▸ hq3)
                    · exact hFwG2 q hq3 hq4
                · exact hr2)
              ndU hentry3 htot
          refine ⟨m4, ?_, ?_, ?_, ?_, ?_⟩
          · rw [hstepClaim, hclaimEq, hrun]
            simp only [Option.bind_eq_bind, Option.some_bind]
            exact hfold4
          · refine treeGood_iffR (fun r => ?_) hgood4
            have hiff := hmemA r
            constructor
            · rintro ⟨⟨⟨hR, hnp⟩, hnT⟩, hnG2⟩
              refine ⟨hR, fun hmem => ?_⟩
              rcases hiff.mp hmem with he | h2 | h2
              · exact hnp he
              · exact hnT h2
              · exact hnG2 h2
            · rintro ⟨hR, hnG⟩
              exact ⟨⟨⟨hR, fun he => hnG (hiff.mpr (Or.inl he))⟩,
                fun h2 => hnG (hiff.mpr (Or.inr (Or.inl h2)))⟩,
                fun h2 => hnG (hiff.mpr (Or.inr (Or.inr h2)))⟩
          · intro q hq
            have hnw : q ≠ w := fun he => hq ((hmemN q).mpr (Or.inl he))
            have hnFw : q ∉ nodesOfF Fw := fun h2 => hq ((hmemN q).mpr (Or.inr (Or.inl h2)))
            have hnG2 : q ∉ nodesOfF G2 := fun h2 => hq ((hmemN q).mpr (Or.inr (Or.inr h2)))
            rw [hfn4 q hnG2, hfn3 q hnFw]
            show (pySet m.1 ((w : Nat) : Int) ndB1).get? q = m.1.get? q
            rw [get?_pySet_nat hwlen ndB1 q, if_neg (fun he => hnw he.symm)]
          · intro r hr
            have hnp : r ≠ p := fun he => hr ((hmemA r).mpr (Or.inl he))
            have hnT : r ∉ arcsOfT (RTree.mk w Fw) :=
              fun h2 => hr ((hmemA r).mpr (Or.inr (Or.inl h2)))
            have hnG2 : r ∉ arcsOfF G2 := fun h2 => hr ((hmemA r).mpr (Or.inr (Or.inr h2)))
            rw [hfa4 r hnG2, hfa3 r hnT]
            show (pySet m.2 ((p : Nat) : Int) afin).get? r = m.2.get? r
            rw [get?_pySet_nat hplen afin r, if_neg (fun he => hnp he.symm)]
          · apply (hdones maxTot u d m4).mpr
            have harcp : m4.2.get? p = some afin := by
              rw [hfa4 p hpG2, hfa3 p hpTw]
              show (pySet m.2 ((p : Nat) : Int) afin).get? p = some afin
              rw [get?_pySet_nat hplen afin p, if_pos rfl]
            have hnodew : m4.1.get? w = some ndB1 := by
              rw [hfn4 w hwG2, hfn3 w hndWFw]
              exact hentry1
            refine ⟨⟨a, afin, ha0, harcp, ?_, ?_, ?_, ?_, ?_, ⟨ndB1, hnodew, ?_, ?_⟩, ?_⟩,
              hdone4⟩
            · rw [hafin]
              split_ifs <;> rfl
            · rw [hafin]
              split_ifs <;> exact hidxU
            · rw [hafin]
              split_ifs <;> exact hidxW
            · rw [hafin]
              split_ifs <;> exact ha1len
            · have hcondiff : (ndU.tot + a1.len > maxTot) ↔ (d + a.len > maxTot) := by
                rw [htot, ha1len]
              rw [hafin]
              by_cases hc : d + a.len > maxTot
              · rw [if_pos (hcondiff.mpr hc), if_pos hc]
              · rw [if_neg (fun h => hc (hcondiff.mp h)), if_neg hc]
                exact ha1en
            · rw [hndB1]
              exact ha1len
            · rw [hndB1]
              show ndU.tot + a1.len = d + a.len
              rw [htot, ha1len]
            · exact done_preserve (sizeF Fw) Fw w (d + a.len) m3 m4 le_rfl hdone3
                (fun r hr => hfa4 r (hTwG2 r hr))
                (fun q hq => hfn4 q (hFwG2 q hq))
        · -- R p, no touch: skip
          refine hskip ?_ ?_
          · rw [directStep_eval hgu ha]
            have h1 : ¬(a.xs = ndU.x ∧ a.ys = ndU.y) := by
              rintro ⟨hx, hy⟩
              exact htouch ⟨a, ndU0, haorig, hgU0, Or.inl ⟨by rw [hx, hufields.2.1],
                by rw [hy, hufields.2.2.1]⟩⟩
            have h2 : ¬(a.xe = ndU.x ∧ a.ye = ndU.y) := by
              rintro ⟨hx, hy⟩
              exact htouch ⟨a, ndU0, haorig, hgU0, Or.inr ⟨by rw [hx, hufields.2.1],
                by rw [hy, hufields.2.2.1]⟩⟩
            rw [if_neg h1, if_neg h2]
            rfl
          · intro r hrtop
            rcases List.mem_cons.mp (hsubL r hrtop) with heq | h2
            · exfalso
              subst heq
              obtain ⟨tw, G2, _, _, _, _, _, hreps, _⟩ :=
                forest_extract (sizeF G) G le_rfl r hrtop
              obtain ⟨⟨a2, ha2, hund2⟩, _, _⟩ := (hreps u).mp hrep
              exact htouch (touch_of_undirEdge ha2 hund2).1
            · exact h2
      · -- p not in R: already directed
        have hdir1 : a.directed = 1 := (hgood.2.2.2.2 p a ha).2 hpR
        refine hskip ?_ ?_
        · rw [directStep_eval hgu ha]
          by_cases h1 : a.xs = ndU.x ∧ a.ys = ndU.y
          · rw [if_pos h1, if_pos hdir1]
            rfl
          · rw [if_neg h1]
            by_cases h2 : a.xe = ndU.x ∧ a.ye = ndU.y
            · rw [if_pos h2, if_pos hdir1]
              rfl
            · rw [if_neg h2]
              rfl
        · intro r hrtop
          rcases List.mem_cons.mp (hsubL r hrtop) with heq | h2
          · exact absurd (heq ▸ hsubR r (topArcs_sub_arcs G r hrtop)) hpR
          · exact h2

end MGO
